import Mathlib

/-!
# Verification of the mod_random token generator

Shallow embedding of the mod_random Apache module (sources under `src/`):
the byte encoders (hex, base64, base64url, custom alphabet with grouping),
the HMAC-signed metadata wrapper, the hierarchical configuration merge and
the per-token TTL cache, together with proofs about the spec's claims.

Machine integers are modelled as `Int`/`Nat` with explicit `% 2 ^ 64` where
the C code relies on fixed-width arithmetic.  C strings (`char *`) are
modelled as `String`/`List Char`; `NULL` pointers as `Option`.  The platform
CSPRNG call `apr_generate_random_bytes` is modelled by an
`Option (List Nat)` argument: `some bytes` is a successful call that filled
the buffer, `none` a failed one.
-/

set_option maxRecDepth 4000
set_option linter.unusedVariables false

namespace ModRandom

/-! ### Constants (mod_random_types.h) -/

def RANDOM_LENGTH_DEFAULT : Int := 16
def RANDOM_LENGTH_MIN : Int := 1
def RANDOM_LENGTH_MAX : Int := 1024
def RANDOM_LENGTH_UNSET : Int := -1
def RANDOM_ENABLED_UNSET : Int := -1
def RANDOM_FORMAT_UNSET : Int := -1
def RANDOM_GROUPING_UNSET : Int := -1
def RANDOM_EXPIRY_UNSET : Int := -1
def RANDOM_TTL_UNSET : Int := -1
def RANDOM_MAX_TOKENS : Nat := 50
def RANDOM_TTL_MAX_SECONDS : Int := 86400
def RANDOM_EXPIRY_MAX_SECONDS : Int := 31536000
def RANDOM_GROUPING_MAX : Int := 128

/-- `random_format_t` values (mod_random_types.h); the unset sentinel `-1`
is stored in the same `int`-typed field, so formats are modelled as `Int`. -/
def RANDOM_FORMAT_BASE64 : Int := 0
def RANDOM_FORMAT_HEX : Int := 1
def RANDOM_FORMAT_BASE64URL : Int := 2
def RANDOM_FORMAT_CUSTOM : Int := 3

/-! ### Hex encoding (mod_random_encode.c, random_encode_hex) -/

/-- The `hex_chars` table of `random_encode_hex`. -/
def hex_chars : List Char := "0123456789abcdef".toList

/-- `random_encode_hex` (mod_random_encode.c lines 11-25): byte `i` yields
`hex_chars[(data[i] >> 4) & 0x0F]` then `hex_chars[data[i] & 0x0F]`. -/
def random_encode_hex_list (data : List Nat) : List Char :=
  (data.map (fun b =>
    [hex_chars.getD ((b >>> 4) &&& 0x0F) '0', hex_chars.getD (b &&& 0x0F) '0'])).flatten

/-- `random_encode_hex` as a `String` (the C function returns `char *`). -/
def random_encode_hex (data : List Nat) : String :=
  String.mk (random_encode_hex_list data)

/-- Modelled from the spec: hex decoding, "decoding it recovers the original
bytes" (spec section 8).  No decoder exists in the source; each pair of hex
digits is mapped back through `hex_chars` to one byte, high nibble first. -/
def hex_decode_list : List Char → List Nat
  | c1 :: c2 :: rest =>
      (hex_chars.indexOf c1 * 16 + hex_chars.indexOf c2) :: hex_decode_list rest
  | _ => []

/-! ### Base64 (external APR routine used by the sources) -/

/-- RFC 4648 base64 alphabet used by `apr_base64_encode`. -/
def base64_chars : List Char :=
  "ABCDEFGHIJKLMNOPQRSTUVWXYZabcdefghijklmnopqrstuvwxyz0123456789+/".toList

/-- `apr_base64_encode` (external APR library routine called by the sources):
standard RFC 4648 base64 with `=` padding. -/
def apr_base64_encode : List Nat → List Char
  | b1 :: b2 :: b3 :: rest =>
      base64_chars.getD (b1 >>> 2) 'A' ::
      base64_chars.getD (((b1 &&& 3) <<< 4) ||| (b2 >>> 4)) 'A' ::
      base64_chars.getD (((b2 &&& 15) <<< 2) ||| (b3 >>> 6)) 'A' ::
      base64_chars.getD (b3 &&& 63) 'A' ::
      apr_base64_encode rest
  | [b1, b2] =>
      [base64_chars.getD (b1 >>> 2) 'A',
       base64_chars.getD (((b1 &&& 3) <<< 4) ||| (b2 >>> 4)) 'A',
       base64_chars.getD (((b2 &&& 15) <<< 2)) 'A',
       '=']
  | [b1] =>
      [base64_chars.getD (b1 >>> 2) 'A',
       base64_chars.getD (((b1 &&& 3) <<< 4)) 'A',
       '=', '=']
  | [] => []

/-- `random_encode_base64url` (mod_random_encode.c lines 27-49): walk the
base64 string replacing `+` with `-` and `/` with `_`, truncating at the
first `=` (the C code overwrites it with `'\0'` and stops). -/
def base64url_subst : List Char → List Char
  | [] => []
  | c :: rest =>
      if c = '+' then '-' :: base64url_subst rest
      else if c = '/' then '_' :: base64url_subst rest
      else if c = '=' then []
      else c :: base64url_subst rest

def random_encode_base64url (data : List Nat) : String :=
  String.mk (base64url_subst (apr_base64_encode data))

/-! ### Custom alphabet encoding (mod_random_encode.c, random_encode_custom_alphabet)

The C routine keeps a 64-bit accumulator `value`, a count `bits_available`
of meaningful low bits, a count `pos` of emitted symbols, and a write
pointer `p` into a buffer of `max_output_len` bytes whose last cell is
reserved for the terminator (`end = result + max_output_len - 1`).  The
model uses `out : List Char` for the characters written so far, so the C
comparisons translate as `p - result = out.length` against
`end - result = max_output_len - 1`. -/

/-- The `while ((1 << bits_needed) < alphabet_len) bits_needed++;` loop
(mod_random_encode.c lines 71-74), with fuel: `fuel = alphabet_len`
dominates the iteration count for every `alphabet_len ≥ 1`. -/
def bits_needed_loop (alphabet_len : Nat) : Nat → Nat → Nat
  | 0, bits => bits
  | fuel + 1, bits =>
      if (1 <<< bits) < alphabet_len then bits_needed_loop alphabet_len fuel (bits + 1)
      else bits

def bits_needed (alphabet_len : Nat) : Nat :=
  bits_needed_loop alphabet_len alphabet_len 0

/-- `max_output_len` computation (mod_random_encode.c lines 76-81). -/
def max_output_len (length bits : Nat) (grouping : Int) : Nat :=
  let base := (length * 8) / bits + (length * 2) + 10
  if 0 < grouping then base + base / grouping.toNat + 10 else base

/-- Encoder state: `value`/`bits_available`/`pos` as in the C locals,
`out` the characters written through `p`, `aborted` records that the
buffer-full early `return` at lines 99-102 was taken. -/
structure CustomEncSt where
  value : Nat
  bits_available : Nat
  pos : Nat
  out : List Char
  aborted : Bool
  deriving DecidableEq, Repr

/-- The inner `while (bits_available >= bits_needed)` loop
(mod_random_encode.c lines 95-116) for one input byte.  `last_byte` is the
C condition `i < length - 1` negated (no separator while processing the
final byte).  Fuel: each iteration consumes `k ≥ 1` bits, so
`fuel = bits_available` dominates the iteration count. -/
def emit_symbols (alphabet : List Char) (alphabet_len k cap : Nat) (grouping : Int)
    (last_byte : Bool) : Nat → CustomEncSt → CustomEncSt
  | 0, st => st
  | fuel + 1, st =>
      if k ≤ st.bits_available then
        -- if (p >= end - 2) { *p = '\0'; return result; }
        if cap - 3 ≤ st.out.length then { st with aborted := true }
        else
          let bits' := st.bits_available - k
          let index := (st.value >>> bits') &&& ((1 <<< k) - 1)
          if index < alphabet_len then
            let pos' := st.pos + 1
            let out' := st.out ++ [alphabet.getD index ' ']
            -- if (grouping > 0 && pos % grouping == 0 && i < length - 1 && p < end - 1)
            let out'' :=
              if 0 < grouping ∧ pos' % grouping.toNat = 0 ∧ last_byte = false ∧
                  out'.length < cap - 2 then
                out' ++ ['-']
              else out'
            emit_symbols alphabet alphabet_len k cap grouping last_byte fuel
              { value := st.value, bits_available := bits', pos := pos',
                out := out'', aborted := st.aborted }
          else
            emit_symbols alphabet alphabet_len k cap grouping last_byte fuel
              { st with bits_available := bits' }
      else st

/-- The outer `for (i = 0; i < length; i++)` loop
(mod_random_encode.c lines 91-117).  `value = (value << 8) | data[i]` is
64-bit arithmetic, hence the explicit `% 2 ^ 64`.  An early `return`
inside the inner loop (modelled by `aborted`) stops all further
processing. -/
def encode_bytes (alphabet : List Char) (alphabet_len k cap : Nat) (grouping : Int) :
    List Nat → CustomEncSt → CustomEncSt
  | [], st => st
  | b :: rest, st =>
      if st.aborted then st
      else
        let value' := (((st.value <<< 8) ||| b)) % 2 ^ 64
        let st' := { st with value := value', bits_available := st.bits_available + 8 }
        let st'' := emit_symbols alphabet alphabet_len k cap grouping rest.isEmpty
          st'.bits_available st'
        encode_bytes alphabet alphabet_len k cap grouping rest st''

/-- `random_encode_custom_alphabet` (mod_random_encode.c lines 52-129).
`alphabet = none` models a `NULL` pointer, `some ""` an empty string; both
fall back to hex, as does an alphabet of fewer than 2 characters.  After
the byte loop the remaining bits are flushed left-shifted into the high
`k` bits (lines 120-125) unless the early return was taken. -/
def random_encode_custom_alphabet (data : List Nat) (alphabet : Option String)
    (grouping : Int) : String :=
  match alphabet with
  | none => random_encode_hex data
  | some a =>
      if a.length < 2 then random_encode_hex data
      else
        let alpha := a.toList
        let alphabet_len := a.length
        let k := bits_needed alphabet_len
        let cap := max_output_len data.length k grouping
        let st := encode_bytes alpha alphabet_len k cap grouping data
          { value := 0, bits_available := 0, pos := 0, out := [], aborted := false }
        if st.aborted then String.mk st.out
        else if 0 < st.bits_available ∧ st.out.length < cap - 1 then
          let index := (st.value <<< (k - st.bits_available)) &&& ((1 <<< k) - 1)
          if index < alphabet_len then String.mk (st.out ++ [alpha.getD index ' '])
          else String.mk st.out
        else String.mk st.out

/-! ### Random string generation entry points -/

/-- `random_generate_string_ex` (mod_random_encode.c lines 132-172).
`rng` models the outcome of `apr_generate_random_bytes`: `some bytes`
when the call returned `APR_SUCCESS` having filled the buffer, `none`
otherwise.  The return status is checked explicitly; on failure the
function returns `NULL` (lines 143-148).  The `switch` falls back to
base64 for `RANDOM_FORMAT_BASE64` and any other value. -/
def random_generate_string_ex (rng : Option (List Nat)) (format : Int)
    (alphabet : Option String) (grouping : Int) : Option String :=
  match rng with
  | none => none
  | some random_bytes =>
      some (if format = RANDOM_FORMAT_HEX then
              random_encode_hex random_bytes
            else if format = RANDOM_FORMAT_BASE64URL then
              random_encode_base64url random_bytes
            else if format = RANDOM_FORMAT_CUSTOM then
              random_encode_custom_alphabet random_bytes alphabet grouping
            else
              String.mk (apr_base64_encode random_bytes))

/-- `generate_random_base64` (mod_random.c lines 104-118).  The return
value of `apr_generate_random_bytes` is ignored: on CSPRNG failure the
function base64-encodes whatever the freshly allocated buffer holds
(`stale`, uninitialized pool memory) and still returns a string. -/
def generate_random_base64 (rng : Option (List Nat)) (stale : List Nat) : String :=
  let random_bytes := match rng with
    | some bytes => bytes
    | none => stale
  String.mk (apr_base64_encode random_bytes)

/-! ### Metadata encoding (mod_random_crypto.c) -/

/-- `random_encode_with_metadata` (mod_random_crypto.c lines 27-60).
`hmac key data` models the external OpenSSL `HMAC(EVP_sha256(), ...)`
call made by `random_hmac_sha256`: it returns the digest bytes written
into the 32-byte buffer.  `now_sec` models `apr_time_sec(apr_time_now())`
read inside the function.  `%ld` printing of `expiry_time` is `toString`
on `Int`. -/
def random_encode_with_metadata (hmac : String → String → List Nat) (now_sec : Int)
    (token : String) (expiry_seconds : Int) (signing_key : Option String) : String :=
  let expiry_time := now_sec + expiry_seconds
  match signing_key with
  | some key =>
      if key ≠ "" then
        let payload := toString expiry_time ++ ":" ++ token
        let hmac_digest := hmac key payload
        let hmac_hex := random_encode_hex hmac_digest
        toString expiry_time ++ ":" ++ token ++ ":" ++ hmac_hex
      else
        toString expiry_time ++ ":" ++ token
  | none => toString expiry_time ++ ":" ++ token

/-! ### Configuration (mod_random_types.h, mod_random_config.c)

`random_token_spec.cache_mutex` is an `apr_thread_mutex_t *`; only its
identity matters here, so mutexes are modelled by `Option Nat`
identifiers drawn from a counter threaded through the allocating
functions (`none` models a `NULL` mutex pointer).  The `pool` and `next`
fields are the APR allocation pool and the intrusive linked-list pointer;
lists are modelled directly by `List`.  The C field names `prefix` and
`suffix` are Lean keywords, hence `prefix_s` / `suffix_s`. -/

structure random_token_spec where
  var_name : String
  length : Int
  format : Int
  header_name : Option String
  include_timestamp : Int
  prefix_s : Option String
  suffix_s : Option String
  ttl_seconds : Int
  cached_token : Option String
  cache_time : Int
  cache_mutex : Option Nat
  deriving DecidableEq, Repr

structure random_config where
  length : Int
  format : Int
  include_timestamp : Int
  prefix_s : Option String
  suffix_s : Option String
  ttl_seconds : Int
  url_pattern : Option String
  token_specs : List random_token_spec
  custom_alphabet : Option String
  alphabet_grouping : Int
  expiry_seconds : Int
  encode_metadata : Int
  signing_key : Option String
  deriving DecidableEq, Repr

/-- `copy_token_spec` (mod_random_config.c lines 13-38): field-by-field
copy into a fresh `apr_pcalloc` node, except the cache does not get
inherited (`cached_token = NULL`, `cache_time = 0`) and a new mutex is
created for the copy.  `next_id` is the allocation counter supplying the
fresh mutex identity; mutex creation is modelled as succeeding. -/
def copy_token_spec (next_id : Nat) (src : random_token_spec) :
    random_token_spec × Nat :=
  ({ var_name := src.var_name
     length := src.length
     format := src.format
     header_name := src.header_name
     include_timestamp := src.include_timestamp
     prefix_s := src.prefix_s
     suffix_s := src.suffix_s
     ttl_seconds := src.ttl_seconds
     cached_token := none
     cache_time := 0
     cache_mutex := some next_id }, next_id + 1)

/-- The two copy loops of `random_merge_config` (mod_random_config.c
lines 103-137): copy specs onto the end of the merged list while
`token_count < RANDOM_MAX_TOKENS`, silently dropping the excess. -/
def copy_specs_bounded : Nat → Nat → List random_token_spec →
    List random_token_spec × Nat
  | next_id, _, [] => ([], next_id)
  | next_id, token_count, spec :: rest =>
      if RANDOM_MAX_TOKENS ≤ token_count then ([], next_id)
      else
        let (new_spec, id') := copy_token_spec next_id spec
        let (tail, id'') := copy_specs_bounded id' (token_count + 1) rest
        (new_spec :: tail, id'')

/-- `random_merge_config` (mod_random_config.c lines 71-140).  Child
settings take precedence when explicitly set (non-sentinel / non-NULL),
otherwise the parent's value is inherited; the token-spec list is the
parent's copied specs followed by the child's, capped at
`RANDOM_MAX_TOKENS`.  `next_id` threads the mutex-identity counter. -/
def random_merge_config (next_id : Nat) (parent child : random_config) :
    random_config × Nat :=
  let ps := copy_specs_bounded next_id 0 parent.token_specs
  let cs := copy_specs_bounded ps.2 ps.1.length child.token_specs
  ({ length := if child.length ≠ RANDOM_LENGTH_UNSET then child.length else parent.length
     format := if child.format ≠ RANDOM_FORMAT_UNSET then child.format else parent.format
     include_timestamp :=
       if child.include_timestamp ≠ RANDOM_ENABLED_UNSET then child.include_timestamp
       else parent.include_timestamp
     prefix_s := if child.prefix_s.isSome then child.prefix_s else parent.prefix_s
     suffix_s := if child.suffix_s.isSome then child.suffix_s else parent.suffix_s
     ttl_seconds :=
       if child.ttl_seconds ≠ RANDOM_TTL_UNSET then child.ttl_seconds
       else parent.ttl_seconds
     url_pattern := if child.url_pattern.isSome then child.url_pattern else parent.url_pattern
     token_specs := ps.1 ++ cs.1
     custom_alphabet :=
       if child.custom_alphabet.isSome then child.custom_alphabet else parent.custom_alphabet
     alphabet_grouping :=
       if child.alphabet_grouping ≠ RANDOM_GROUPING_UNSET then child.alphabet_grouping
       else parent.alphabet_grouping
     expiry_seconds :=
       if child.expiry_seconds ≠ RANDOM_EXPIRY_UNSET then child.expiry_seconds
       else parent.expiry_seconds
     encode_metadata :=
       if child.encode_metadata ≠ RANDOM_ENABLED_UNSET then child.encode_metadata
       else parent.encode_metadata
     signing_key :=
       if child.signing_key.isSome then child.signing_key else parent.signing_key }, cs.2)

/-! ### Token generation with caching (mod_random_token.c) -/

/-- `apr_time_t` is microseconds since the epoch;
`apr_time_sec(t) = t / APR_USEC_PER_SEC` with C division truncating
toward zero (`Int.tdiv`). -/
def APR_USEC_PER_SEC : Int := 1000000

def apr_time_sec (t : Int) : Int := Int.tdiv t APR_USEC_PER_SEC

/-- The per-token-definition cache cell: `*cached_token` and
`*cache_time` behind the definition's mutex. -/
structure CacheCell where
  cached_token : Option String
  cache_time : Int
  deriving DecidableEq, Repr

/-- Parameter resolution of `random_generate_token_from_spec`
(mod_random_token.c lines 55-61): spec value if explicitly set, else the
scope default. -/
def resolve_int (spec_val default_val sentinel : Int) : Int :=
  if spec_val ≠ sentinel then spec_val else default_val

/-- Resolved and defensively validated token length
(mod_random_token.c lines 56 and 63-69). -/
def final_length_of (spec : Option random_token_spec) (default_length : Int) : Int :=
  let v : Int := match spec with
    | some s => resolve_int s.length default_length RANDOM_LENGTH_UNSET
    | none => default_length
  if v < RANDOM_LENGTH_MIN ∨ RANDOM_LENGTH_MAX < v then RANDOM_LENGTH_DEFAULT else v

/-- Resolved and defensively validated format (lines 57 and 72-77). -/
def final_format_of (spec : Option random_token_spec) (default_format : Int) : Int :=
  let v : Int := match spec with
    | some s => resolve_int s.format default_format RANDOM_FORMAT_UNSET
    | none => default_format
  if v < RANDOM_FORMAT_BASE64 ∨ RANDOM_FORMAT_CUSTOM < v then RANDOM_FORMAT_BASE64 else v

/-- Resolved timestamp flag (line 58); tested with C truthiness (`≠ 0`). -/
def final_timestamp_of (spec : Option random_token_spec) (default_timestamp : Int) : Int :=
  match spec with
  | some s => resolve_int s.include_timestamp default_timestamp RANDOM_ENABLED_UNSET
  | none => default_timestamp

/-- Resolved prefix (line 59). -/
def final_prefix_of (spec : Option random_token_spec)
    (default_pref : Option String) : Option String :=
  match spec with
  | some s => if s.prefix_s.isSome then s.prefix_s else default_pref
  | none => default_pref

/-- Resolved suffix (line 60). -/
def final_suffix_of (spec : Option random_token_spec)
    (default_suffix : Option String) : Option String :=
  match spec with
  | some s => if s.suffix_s.isSome then s.suffix_s else default_suffix
  | none => default_suffix

/-- Resolved and defensively validated TTL (lines 61 and 80-90).  Note the
C quirk: a TTL equal to the `-1` sentinel passes both checks unchanged. -/
def final_ttl_of (spec : Option random_token_spec) (default_ttl : Int) : Int :=
  let v : Int := match spec with
    | some s => resolve_int s.ttl_seconds default_ttl RANDOM_TTL_UNSET
    | none => default_ttl
  if v < 0 ∧ v ≠ RANDOM_TTL_UNSET then 0
  else if RANDOM_TTL_MAX_SECONDS < v then RANDOM_TTL_MAX_SECONDS
  else v

/-- Resolved and validated alphabet grouping (lines 138 and 143-153). -/
def final_alphabet_grouping_of (cfg : random_config) : Int :=
  let v : Int :=
    if cfg.alphabet_grouping ≠ RANDOM_GROUPING_UNSET then cfg.alphabet_grouping else 0
  if v < 0 then 0
  else if RANDOM_GROUPING_MAX < v then RANDOM_GROUPING_MAX
  else v

/-- Resolved and validated metadata expiry (lines 139 and 156-166). -/
def final_expiry_seconds_of (cfg : random_config) : Int :=
  let v : Int :=
    if cfg.expiry_seconds ≠ RANDOM_EXPIRY_UNSET then cfg.expiry_seconds else 0
  if v < 0 ∧ v ≠ RANDOM_EXPIRY_UNSET then 0
  else if RANDOM_EXPIRY_MAX_SECONDS < v then RANDOM_EXPIRY_MAX_SECONDS
  else v

/-- Resolved metadata-enabled flag (line 140). -/
def final_encode_metadata_of (cfg : random_config) : Int :=
  if cfg.encode_metadata ≠ RANDOM_ENABLED_UNSET then cfg.encode_metadata else 0

/-- Custom-format fallback when no alphabet is configured (lines 169-173). -/
def eff_format (final_format : Int) (cfg : random_config) : Int :=
  if final_format = RANDOM_FORMAT_CUSTOM ∧ cfg.custom_alphabet.isNone then
    RANDOM_FORMAT_BASE64
  else final_format

/-- The mutex-guarded cache read (mod_random_token.c lines 97-129):
first component is the cache hit (if any), second the cache cell as left
by the read (cleared when the clock went backwards). -/
def cache_read (final_ttl : Int) (cache_avail : Bool) (cell : CacheCell)
    (now : Int) : Option String × CacheCell :=
  if 0 < final_ttl ∧ cache_avail then
    match cell.cached_token with
    | some tok =>
        let elapsed := apr_time_sec (now - cell.cache_time)
        if elapsed < 0 then
          -- clock went backwards: invalidate and treat as a miss
          (none, { cached_token := none, cache_time := 0 : CacheCell })
        else if elapsed < final_ttl then
          -- valid cache hit, duplicated out before unlock
          (some tok, cell)
        else (none, cell)
    | none => (none, cell)
  else (none, cell)

/-- The generation path on a cache miss (mod_random_token.c lines 131-234):
encode, then optional timestamp prefix, then optional metadata wrapper,
then prefix/suffix, then the cache write. -/
def generate_fresh_token (hmac : String → String → List Nat) (cfg : random_config)
    (final_format final_timestamp : Int)
    (final_pref final_suffix : Option String) (final_ttl : Int)
    (cell1 : CacheCell) (cache_avail : Bool) (now : Int)
    (rng : Option (List Nat)) : Option String × CacheCell :=
  match random_generate_string_ex rng (eff_format final_format cfg)
      cfg.custom_alphabet (final_alphabet_grouping_of cfg) with
  | none => (none, cell1)  -- CSPRNG failed: log critically, return NULL
  | some s0 =>
      -- Add timestamp if requested (lines 188-191)
      let s1 :=
        if final_timestamp ≠ 0 then
          toString (apr_time_sec now) ++ "-" ++ s0
        else s0
      -- Encode metadata with expiry and signature if requested (lines 194-207)
      let s2 :=
        if final_encode_metadata_of cfg ≠ 0 ∧ 0 < final_expiry_seconds_of cfg ∧
            cfg.signing_key.isSome then
          random_encode_with_metadata hmac (apr_time_sec now) s1
            (final_expiry_seconds_of cfg) cfg.signing_key
        else s1
      -- Add prefix/suffix if configured (lines 210-217)
      let final_token :=
        if final_pref.isSome ∨ final_suffix.isSome then
          final_pref.getD "" ++ s2 ++ final_suffix.getD ""
        else s2
      -- Update cache if TTL is enabled (lines 220-233)
      let cell2 :=
        if 0 < final_ttl ∧ cache_avail then
          { cached_token := some final_token, cache_time := now : CacheCell }
        else cell1
      (some final_token, cell2)

/-- `random_generate_token_from_spec` (mod_random_token.c lines 28-237).

Modelling conventions:
* `spec` is the nullable `random_token_spec *` argument;
* `cache_avail` folds together the C guard
  `cache_mutex && cached_token && cache_time && cache_pool` and the
  success of `apr_thread_mutex_lock` (a `NULL` mutex and a failed lock
  both skip the cache);
* `cell` is the pointed-to cache state, returned updated;
* `now` is the `apr_time_now()` value captured at line 94;
* `rng` is the CSPRNG outcome inside `random_generate_string_ex`;
* `hmac` is the OpenSSL HMAC oracle of `random_encode_with_metadata`
  (which in C re-reads the clock; the model passes `apr_time_sec now`);
* the `NULL`-`r`/`NULL`-`cfg` programming-error guards (lines 45-53) are
  outside the value-level model.

Returns the generated token (`none` = `NULL`, CSPRNG failure) together
with the cache cell after the call. -/
def random_generate_token_from_spec (hmac : String → String → List Nat)
    (cfg : random_config) (spec : Option random_token_spec)
    (default_length default_format default_timestamp : Int)
    (default_pref default_suffix : Option String) (default_ttl : Int)
    (cell : CacheCell) (cache_avail : Bool) (now : Int)
    (rng : Option (List Nat)) : Option String × CacheCell :=
  let final_format := final_format_of spec default_format
  let final_timestamp := final_timestamp_of spec default_timestamp
  let final_pref := final_prefix_of spec default_pref
  let final_suffix := final_suffix_of spec default_suffix
  let final_ttl := final_ttl_of spec default_ttl
  let read := cache_read final_ttl cache_avail cell now
  match read.1 with
  | some tok => (some tok, read.2)  -- cache hit: return immediately
  | none =>
      generate_fresh_token hmac cfg final_format final_timestamp
        final_pref final_suffix final_ttl read.2 cache_avail now rng

/-! ### Bitstream semantics of the custom encoder (spec section 4.3) -/

/-- The eight bits of a byte, most significant first. -/
def byte_bits (b : Nat) : List Bool :=
  [b.testBit 7, b.testBit 6, b.testBit 5, b.testBit 4,
   b.testBit 3, b.testBit 2, b.testBit 1, b.testBit 0]

/-- The input treated as a bitstream read byte-by-byte, MSB first. -/
def bits_of_bytes (data : List Nat) : List Bool := (data.map byte_bits).flatten

/-- The numeric value of an MSB-first bit list. -/
def nat_of_bits (bs : List Bool) : Nat :=
  bs.foldl (fun a b => 2 * a + (if b then 1 else 0)) 0

/-- All complete `k`-bit chunks of a bit list (as symbol indices) together
with the leftover bits (fewer than `k`).  Fuel-structured;
`fuel = bs.length` is always enough when `k ≥ 1`. -/
def full_chunks (k : Nat) : Nat → List Bool → List Nat × List Bool
  | 0, bs => ([], bs)
  | fuel + 1, bs =>
      if k ≤ bs.length then
        (nat_of_bits (bs.take k) :: (full_chunks k fuel (bs.drop k)).1,
         (full_chunks k fuel (bs.drop k)).2)
      else ([], bs)

/-- Modelled from the spec (section 4.3): the symbol indices of the custom
encoding - the MSB-first bitstream cut into `k`-bit symbols, the final
partial symbol zero-padded on its low bits.  The source implements this
only imperatively (`random_encode_custom_alphabet`); this definition
follows the spec's words and is compared with the source's encoder. -/
def spec_chunk_indices (k : Nat) (bs : List Bool) : List Nat :=
  (full_chunks k bs.length bs).1 ++
    (if (full_chunks k bs.length bs).2.isEmpty then []
     else [nat_of_bits ((full_chunks k bs.length bs).2 ++
       List.replicate (k - (full_chunks k bs.length bs).2.length) false)])

/-! ### Auxiliary definitions for the proofs (projections and
witness fixtures) -/

/-- Forget the (allocation-dependent) mutex identity of a spec. -/
def erase_mutex (s : random_token_spec) : random_token_spec :=
  { s with cache_mutex := none }

/-- What `copy_token_spec` preserves of its source: everything except the
cache state and the mutex. -/
def reset_cache (s : random_token_spec) : random_token_spec :=
  { s with cached_token := none, cache_time := 0, cache_mutex := none }

/-- A demo token spec carrying cache state and a mutex, for witnesses. -/
def demo_spec : random_token_spec :=
  { var_name := "tok", length := 32, format := RANDOM_FORMAT_HEX,
    header_name := none, include_timestamp := 0, prefix_s := none,
    suffix_s := none, ttl_seconds := 5, cached_token := some "stale",
    cache_time := 42, cache_mutex := some 0 }

/-- A second demo token spec, distinct cache state, for witnesses. -/
def demo_spec2 : random_token_spec :=
  { var_name := "tok2", length := 16, format := RANDOM_FORMAT_BASE64,
    header_name := some "X-Token", include_timestamp := 1, prefix_s := some "p-",
    suffix_s := none, ttl_seconds := 0, cached_token := some "older",
    cache_time := 7, cache_mutex := some 1 }

/-- Demo parent configuration (token list with live cache state). -/
def demo_parent : random_config :=
  { length := 8, format := RANDOM_FORMAT_UNSET,
    include_timestamp := RANDOM_ENABLED_UNSET, prefix_s := none,
    suffix_s := none, ttl_seconds := RANDOM_TTL_UNSET, url_pattern := none,
    token_specs := [demo_spec], custom_alphabet := none,
    alphabet_grouping := RANDOM_GROUPING_UNSET,
    expiry_seconds := RANDOM_EXPIRY_UNSET,
    encode_metadata := RANDOM_ENABLED_UNSET, signing_key := none }

/-- Demo child configuration (token list with live cache state). -/
def demo_child : random_config :=
  { length := RANDOM_LENGTH_UNSET, format := RANDOM_FORMAT_UNSET,
    include_timestamp := RANDOM_ENABLED_UNSET, prefix_s := none,
    suffix_s := none, ttl_seconds := 30, url_pattern := none,
    token_specs := [demo_spec2], custom_alphabet := none,
    alphabet_grouping := RANDOM_GROUPING_UNSET,
    expiry_seconds := RANDOM_EXPIRY_UNSET,
    encode_metadata := RANDOM_ENABLED_UNSET, signing_key := none }

/-- Configuration exercising every assembly stage, for the C7 witness:
metadata enabled with expiry 60 and signing key "k". -/
def demo_meta_cfg : random_config :=
  { length := RANDOM_LENGTH_UNSET, format := RANDOM_FORMAT_UNSET,
    include_timestamp := RANDOM_ENABLED_UNSET, prefix_s := none,
    suffix_s := none, ttl_seconds := RANDOM_TTL_UNSET, url_pattern := none,
    token_specs := [], custom_alphabet := none,
    alphabet_grouping := RANDOM_GROUPING_UNSET, expiry_seconds := 60,
    encode_metadata := 1, signing_key := some "k" }

-- Sanity checks follow (anchored to the repository's unit tests).

-- Sanity anchors mirroring the repository's unit tests.
example : random_encode_hex [0x00, 0xFF, 0xAB, 0xCD] = "00ffabcd" := by decide
example : random_encode_hex [] = "" := by decide
example : random_encode_hex [0x42] = "42" := by decide
example : hex_decode_list (random_encode_hex_list [0x00, 0xFF, 0xAB, 0xCD])
    = [0x00, 0xFF, 0xAB, 0xCD] := by decide

-- apr_time_sec semantics probe: C integer division truncates toward zero.
example : Int.tdiv (-1 : Int) 1000000 = 0 := by decide
example : Int.tdiv (-1000001 : Int) 1000000 = -1 := by decide

-- Sanity anchors for the custom encoder (mirroring the repository's tests).
example : random_encode_custom_alphabet [0x00, 0x01, 0x02, 0x03] (some "ABCD") 0
    = "AAAAAAABAAACAAAD" := by decide
example : (random_encode_custom_alphabet [0, 0, 0, 0, 0, 0, 0, 0]
    (some "0123456789ABCDEF") 4).toList.count '-' = 3 := by decide
-- A 3-character alphabet silently drops every out-of-range 2-bit index.
example : random_encode_custom_alphabet [0xFF] (some "ABC") 0 = "" := by decide


/-! ## Helper lemmas: hex encoding -/

lemma getD_mem_of_lt {l : List Char} {n : Nat} {d : Char} (h : n < l.length) :
    l.getD n d ∈ l := by
  simp [List.getD_eq_getElem?_getD, List.getElem?_eq_getElem h]

lemma and_fifteen_lt (b : Nat) : b &&& 15 < 16 := by
  have h := Nat.and_lt_two_pow b (show 15 < 2 ^ 4 by norm_num)
  simpa using h

lemma hex_list_cons (b : Nat) (data : List Nat) :
    random_encode_hex_list (b :: data) =
      hex_chars.getD ((b >>> 4) &&& 15) '0' :: hex_chars.getD (b &&& 15) '0' ::
        random_encode_hex_list data := by
  simp [random_encode_hex_list]

lemma hex_list_length (data : List Nat) :
    (random_encode_hex_list data).length = 2 * data.length := by
  induction data with
  | nil => simp [random_encode_hex_list]
  | cons b t ih => rw [hex_list_cons]; simp [ih]; ring

lemma hex_nibbles : ∀ b < 256, (b >>> 4) &&& 15 = b / 16 ∧ b &&& 15 = b % 16 := by
  decide

lemma hex_indexOf_getD : ∀ i < 16, hex_chars.indexOf (hex_chars.getD i '0') = i := by
  decide

lemma hex_list_mem (data : List Nat) :
    ∀ c ∈ random_encode_hex_list data, c ∈ hex_chars := by
  induction data with
  | nil => simp [random_encode_hex_list]
  | cons b t ih =>
      intro c hc
      rw [hex_list_cons] at hc
      rcases List.mem_cons.mp hc with h | hc2
      · exact h ▸ getD_mem_of_lt (by simpa [hex_chars] using and_fifteen_lt (b >>> 4))
      rcases List.mem_cons.mp hc2 with h | h
      · exact h ▸ getD_mem_of_lt (by simpa [hex_chars] using and_fifteen_lt b)
      · exact ih c h

lemma hex_list_roundtrip (data : List Nat) (h : ∀ b ∈ data, b < 256) :
    hex_decode_list (random_encode_hex_list data) = data := by
  induction data with
  | nil => rfl
  | cons b t ih =>
      have hb : b < 256 := h b (List.mem_cons_self b t)
      obtain ⟨h1, h2⟩ := hex_nibbles b hb
      rw [hex_list_cons]
      simp only [hex_decode_list]
      rw [hex_indexOf_getD _ (by simpa [h1] using Nat.div_lt_iff_lt_mul (by norm_num) |>.mpr hb),
          hex_indexOf_getD _ (and_fifteen_lt b)]
      rw [h1, h2, ih (fun x hx => h x (List.mem_cons_of_mem b hx))]
      congr 1
      omega

lemma hex_list_nibble_order (data : List Nat) (h : ∀ b ∈ data, b < 256) :
    random_encode_hex_list data =
      (data.map (fun b => [hex_chars.getD (b / 16) '0', hex_chars.getD (b % 16) '0'])).flatten := by
  induction data with
  | nil => rfl
  | cons b t ih =>
      have hb : b < 256 := h b (List.mem_cons_self b t)
      obtain ⟨h1, h2⟩ := hex_nibbles b hb
      rw [hex_list_cons, ih (fun x hx => h x (List.mem_cons_of_mem b hx))]
      simp [h1, h2]

/-- **C9**: for every byte array, hex encoding produces exactly `2 n`
characters, each from `0123456789abcdef`, byte `i` contributing its high
nibble then its low nibble, and decoding the output recovers the input. -/
theorem C9_hex_encoding_correct (data : List Nat) (h : ∀ b ∈ data, b < 256) :
    (random_encode_hex data).length = 2 * data.length ∧
    (∀ c ∈ (random_encode_hex data).toList, c ∈ hex_chars) ∧
    (random_encode_hex data).toList =
      (data.map (fun b => [hex_chars.getD (b / 16) '0', hex_chars.getD (b % 16) '0'])).flatten ∧
    hex_decode_list (random_encode_hex data).toList = data := by
  refine ⟨?_, ?_, ?_, ?_⟩
  · show (random_encode_hex_list data).length = 2 * data.length
    exact hex_list_length data
  · exact hex_list_mem data
  · exact hex_list_nibble_order data h
  · exact hex_list_roundtrip data h

/-- Witness for C9 at the repository's own unit-test vector. -/
theorem C9_hex_encoding_correct_witness :
    (∀ b ∈ [0x00, 0xFF, 0xAB, 0xCD], b < 256) ∧
    ((random_encode_hex [0x00, 0xFF, 0xAB, 0xCD]).length = 2 * [0x00, 0xFF, 0xAB, 0xCD].length ∧
     (∀ c ∈ (random_encode_hex [0x00, 0xFF, 0xAB, 0xCD]).toList, c ∈ hex_chars) ∧
     (random_encode_hex [0x00, 0xFF, 0xAB, 0xCD]).toList =
       ([0x00, 0xFF, 0xAB, 0xCD].map
         (fun b => [hex_chars.getD (b / 16) '0', hex_chars.getD (b % 16) '0'])).flatten ∧
     hex_decode_list (random_encode_hex [0x00, 0xFF, 0xAB, 0xCD]).toList =
       [0x00, 0xFF, 0xAB, 0xCD]) :=
  ⟨by decide, C9_hex_encoding_correct [0x00, 0xFF, 0xAB, 0xCD] (by decide)⟩

/-! ## Claim C2: metadata signing -/

/-- **C2**: signing token `t` with expiry `e > 0` at time `now` yields exactly
`"{now+e}:{t}:{h}"` where `h` is the 64-character lowercase-hex encoding of
the HMAC-SHA256 digest of the payload `"{now+e}:{t}"` keyed by the non-empty
signing key; with the key absent or empty the result is exactly
`"{now+e}:{t}"`.  The digest length hypothesis (the OpenSSL HMAC-SHA256
digest is 32 bytes) feeds the 64-character consequence. -/
theorem C2_metadata_signing (hmac : String → String → List Nat) (now_sec : Int)
    (token : String) (expiry_seconds : Int) (signing_key : Option String)
    (he : 0 < expiry_seconds) :
    (∀ key, signing_key = some key → key ≠ "" →
      random_encode_with_metadata hmac now_sec token expiry_seconds signing_key =
        toString (now_sec + expiry_seconds) ++ ":" ++ token ++ ":" ++
          random_encode_hex
            (hmac key (toString (now_sec + expiry_seconds) ++ ":" ++ token)) ∧
      ((hmac key (toString (now_sec + expiry_seconds) ++ ":" ++ token)).length = 32 →
        (random_encode_hex
            (hmac key (toString (now_sec + expiry_seconds) ++ ":" ++ token))).length = 64) ∧
      (∀ c ∈ (random_encode_hex
          (hmac key (toString (now_sec + expiry_seconds) ++ ":" ++ token))).toList,
        c ∈ hex_chars)) ∧
    ((signing_key = none ∨ signing_key = some "") →
      random_encode_with_metadata hmac now_sec token expiry_seconds signing_key =
        toString (now_sec + expiry_seconds) ++ ":" ++ token) := by
  refine ⟨?_, ?_⟩
  · intro key hk hne
    subst hk
    refine ⟨by simp [random_encode_with_metadata, hne], ?_, ?_⟩
    · intro h32
      show (random_encode_hex_list _).length = 64
      rw [hex_list_length, h32]
    · exact hex_list_mem _
  · intro hk
    rcases hk with h | h <;> subst h <;>
      simp [random_encode_with_metadata]

/-- Witness for C2 mirroring the spec's section-8 example shape with a
constant HMAC oracle. -/
theorem C2_metadata_signing_witness :
    random_encode_with_metadata (fun _ _ => List.replicate 32 0) 1000 "abc" 60
        (some "k") =
      "1060:abc:0000000000000000000000000000000000000000000000000000000000000000" := by
  have h := (C2_metadata_signing (fun _ _ => List.replicate 32 0) 1000 "abc" 60
    (some "k") (by decide)).1 "k" rfl (by decide)
  rw [h.1]
  decide

/-! ## Claim C1: CSPRNG status checking -/

/-- **C1** (code bug in mod_random.c): the claim says every call site that
turns random bytes into a token checks the CSPRNG return status and returns
`NULL` for that token on failure.  `random_generate_string_ex`
(mod_random_encode.c lines 140-148) does check and fails cleanly for every
format, but `generate_random_base64` (mod_random.c lines 104-118) ignores
the return status of `apr_generate_random_bytes` and returns the base64
encoding of the uninitialized buffer (here zero-filled) instead of `NULL`. -/
theorem C1_csprng_failure_divergence :
    random_generate_string_ex none RANDOM_FORMAT_BASE64 none 0 = none ∧
    random_generate_string_ex none RANDOM_FORMAT_HEX none 0 = none ∧
    random_generate_string_ex none RANDOM_FORMAT_BASE64URL none 0 = none ∧
    random_generate_string_ex none RANDOM_FORMAT_CUSTOM (some "ABCD") 0 = none ∧
    generate_random_base64 none (List.replicate 16 0) =
      "AAAAAAAAAAAAAAAAAAAAAA==" := by
  decide

/-! ## Helper lemmas: configuration merge -/

lemma copy_token_spec_erase (nid : Nat) (s : random_token_spec) :
    erase_mutex (copy_token_spec nid s).1 = reset_cache s := rfl

lemma copy_specs_length (l : List random_token_spec) :
    ∀ nid c, (copy_specs_bounded nid c l).1.length =
      min l.length (RANDOM_MAX_TOKENS - c) := by
  induction l with
  | nil => intro nid c; simp [copy_specs_bounded]
  | cons s rest ih =>
      intro nid c
      by_cases hc : RANDOM_MAX_TOKENS ≤ c
      · simp [copy_specs_bounded, hc]
      · simp only [copy_specs_bounded, if_neg hc, List.length_cons]
        rw [ih]
        omega

lemma copy_specs_snd (l : List random_token_spec) :
    ∀ nid c, (copy_specs_bounded nid c l).2 =
      nid + (copy_specs_bounded nid c l).1.length := by
  induction l with
  | nil => intro nid c; simp [copy_specs_bounded]
  | cons s rest ih =>
      intro nid c
      by_cases hc : RANDOM_MAX_TOKENS ≤ c
      · simp [copy_specs_bounded, hc]
      · simp only [copy_specs_bounded, if_neg hc, copy_token_spec, List.length_cons]
        rw [ih]
        omega

lemma copy_specs_content (l : List random_token_spec) :
    ∀ nid c, (copy_specs_bounded nid c l).1.map erase_mutex =
      (l.take (RANDOM_MAX_TOKENS - c)).map reset_cache := by
  induction l with
  | nil => intro nid c; simp [copy_specs_bounded]
  | cons s rest ih =>
      intro nid c
      by_cases hc : RANDOM_MAX_TOKENS ≤ c
      · have h0 : RANDOM_MAX_TOKENS - c = 0 := by omega
        simp [copy_specs_bounded, hc, h0]
      · have h1 : RANDOM_MAX_TOKENS - c = (RANDOM_MAX_TOKENS - (c + 1)) + 1 := by
          simp only [RANDOM_MAX_TOKENS] at hc ⊢; omega
        simp only [copy_specs_bounded, if_neg hc, List.map_cons, h1, List.take_succ_cons]
        rw [copy_token_spec_erase, ih]

lemma copy_specs_mutex_range (l : List random_token_spec) :
    ∀ nid c, ∀ s ∈ (copy_specs_bounded nid c l).1,
      s.cached_token = none ∧ s.cache_time = 0 ∧
      ∃ j, s.cache_mutex = some j ∧ nid ≤ j ∧
        j < nid + (copy_specs_bounded nid c l).1.length := by
  induction l with
  | nil => intro nid c s hs; simp [copy_specs_bounded] at hs
  | cons x rest ih =>
      intro nid c s hs
      by_cases hc : RANDOM_MAX_TOKENS ≤ c
      · simp [copy_specs_bounded, hc] at hs
      · simp only [copy_specs_bounded, if_neg hc] at hs ⊢
        rcases List.mem_cons.mp hs with h | h
        · subst h
          exact ⟨rfl, rfl, nid, rfl, le_refl _, by simp [copy_token_spec]⟩
        · obtain ⟨h1, h2, j, hj, hj1, hj2⟩ := ih (nid + 1) (c + 1) s h
          exact ⟨h1, h2, j, hj, by omega, by simp [copy_token_spec]; omega⟩

lemma copy_specs_mutex_nodup (l : List random_token_spec) :
    ∀ nid c, ((copy_specs_bounded nid c l).1.map
      (fun s => s.cache_mutex)).Nodup := by
  induction l with
  | nil => intro nid c; simp [copy_specs_bounded]
  | cons x rest ih =>
      intro nid c
      by_cases hc : RANDOM_MAX_TOKENS ≤ c
      · simp [copy_specs_bounded, hc]
      · simp only [copy_specs_bounded, if_neg hc, List.map_cons, List.nodup_cons]
        refine ⟨?_, ih (nid + 1) (c + 1)⟩
        intro hmem
        rcases List.mem_map.mp hmem with ⟨s, hs, hq⟩
        obtain ⟨_, _, j, hj, hj1, _⟩ := copy_specs_mutex_range rest (nid + 1) (c + 1) s hs
        rw [hj] at hq
        have : (copy_token_spec nid x).1.cache_mutex = some nid := rfl
        rw [this] at hq
        have : nid = j := by injection hq.symm
        omega

lemma merge_token_specs_eq (next_id : Nat) (parent child : random_config) :
    (random_merge_config next_id parent child).1.token_specs =
      (copy_specs_bounded next_id 0 parent.token_specs).1 ++
        (copy_specs_bounded (copy_specs_bounded next_id 0 parent.token_specs).2
          (copy_specs_bounded next_id 0 parent.token_specs).1.length
          child.token_specs).1 := rfl

/-! ## Claim C6: configuration merge -/

/-- **C6**: in `random_merge_config`, each scalar default field takes the
child's explicitly-set (non-sentinel) value, else the parent's; the merged
token-definition list is every parent definition in order followed by every
child definition in order, truncated silently at 50, so its length is
`min (parentCount + childCount) 50`. -/
theorem C6_merge_config (next_id : Nat) (parent child : random_config) :
    ((child.length ≠ RANDOM_LENGTH_UNSET →
        (random_merge_config next_id parent child).1.length = child.length) ∧
     (child.length = RANDOM_LENGTH_UNSET →
        (random_merge_config next_id parent child).1.length = parent.length)) ∧
    ((child.format ≠ RANDOM_FORMAT_UNSET →
        (random_merge_config next_id parent child).1.format = child.format) ∧
     (child.format = RANDOM_FORMAT_UNSET →
        (random_merge_config next_id parent child).1.format = parent.format)) ∧
    ((child.include_timestamp ≠ RANDOM_ENABLED_UNSET →
        (random_merge_config next_id parent child).1.include_timestamp =
          child.include_timestamp) ∧
     (child.include_timestamp = RANDOM_ENABLED_UNSET →
        (random_merge_config next_id parent child).1.include_timestamp =
          parent.include_timestamp)) ∧
    ((child.prefix_s.isSome →
        (random_merge_config next_id parent child).1.prefix_s = child.prefix_s) ∧
     (child.prefix_s = none →
        (random_merge_config next_id parent child).1.prefix_s = parent.prefix_s)) ∧
    ((child.suffix_s.isSome →
        (random_merge_config next_id parent child).1.suffix_s = child.suffix_s) ∧
     (child.suffix_s = none →
        (random_merge_config next_id parent child).1.suffix_s = parent.suffix_s)) ∧
    ((child.ttl_seconds ≠ RANDOM_TTL_UNSET →
        (random_merge_config next_id parent child).1.ttl_seconds = child.ttl_seconds) ∧
     (child.ttl_seconds = RANDOM_TTL_UNSET →
        (random_merge_config next_id parent child).1.ttl_seconds = parent.ttl_seconds)) ∧
    (random_merge_config next_id parent child).1.token_specs.length =
      min (parent.token_specs.length + child.token_specs.length) RANDOM_MAX_TOKENS ∧
    (random_merge_config next_id parent child).1.token_specs.map erase_mutex =
      ((parent.token_specs ++ child.token_specs).take RANDOM_MAX_TOKENS).map
        reset_cache := by
  refine ⟨⟨?_, ?_⟩, ⟨?_, ?_⟩, ⟨?_, ?_⟩, ⟨?_, ?_⟩, ⟨?_, ?_⟩, ⟨?_, ?_⟩, ?_, ?_⟩
  · intro h; simp [random_merge_config, h]
  · intro h; simp [random_merge_config, h]
  · intro h; simp [random_merge_config, h]
  · intro h; simp [random_merge_config, h]
  · intro h; simp [random_merge_config, h]
  · intro h; simp [random_merge_config, h]
  · intro h; simp [random_merge_config, h]
  · intro h; simp [random_merge_config, h]
  · intro h; simp [random_merge_config, h]
  · intro h; simp [random_merge_config, h]
  · intro h; simp [random_merge_config, h]
  · intro h; simp [random_merge_config, h]
  · rw [merge_token_specs_eq]
    rw [List.length_append, copy_specs_length, copy_specs_length]
    omega
  · rw [merge_token_specs_eq, List.map_append, copy_specs_content, copy_specs_content,
        copy_specs_length, List.take_append_eq_append_take, List.map_append]
    simp only [Nat.sub_zero]
    have h50 : RANDOM_MAX_TOKENS - min parent.token_specs.length RANDOM_MAX_TOKENS
        = RANDOM_MAX_TOKENS - parent.token_specs.length := by omega
    rw [h50]

/-- Witness for C6 at the spec's section-8 example: parent sets length 8,
child sets TTL 30 and leaves length unset. -/
theorem C6_merge_config_witness :
    (random_merge_config 0
        { length := 8, format := RANDOM_FORMAT_UNSET,
          include_timestamp := RANDOM_ENABLED_UNSET, prefix_s := none,
          suffix_s := none, ttl_seconds := RANDOM_TTL_UNSET, url_pattern := none,
          token_specs := [], custom_alphabet := none,
          alphabet_grouping := RANDOM_GROUPING_UNSET,
          expiry_seconds := RANDOM_EXPIRY_UNSET,
          encode_metadata := RANDOM_ENABLED_UNSET, signing_key := none }
        { length := RANDOM_LENGTH_UNSET, format := RANDOM_FORMAT_UNSET,
          include_timestamp := RANDOM_ENABLED_UNSET, prefix_s := none,
          suffix_s := none, ttl_seconds := 30, url_pattern := none,
          token_specs := [], custom_alphabet := none,
          alphabet_grouping := RANDOM_GROUPING_UNSET,
          expiry_seconds := RANDOM_EXPIRY_UNSET,
          encode_metadata := RANDOM_ENABLED_UNSET, signing_key := none }).1.length = 8 ∧
    (random_merge_config 0
        { length := 8, format := RANDOM_FORMAT_UNSET,
          include_timestamp := RANDOM_ENABLED_UNSET, prefix_s := none,
          suffix_s := none, ttl_seconds := RANDOM_TTL_UNSET, url_pattern := none,
          token_specs := [], custom_alphabet := none,
          alphabet_grouping := RANDOM_GROUPING_UNSET,
          expiry_seconds := RANDOM_EXPIRY_UNSET,
          encode_metadata := RANDOM_ENABLED_UNSET, signing_key := none }
        { length := RANDOM_LENGTH_UNSET, format := RANDOM_FORMAT_UNSET,
          include_timestamp := RANDOM_ENABLED_UNSET, prefix_s := none,
          suffix_s := none, ttl_seconds := 30, url_pattern := none,
          token_specs := [], custom_alphabet := none,
          alphabet_grouping := RANDOM_GROUPING_UNSET,
          expiry_seconds := RANDOM_EXPIRY_UNSET,
          encode_metadata := RANDOM_ENABLED_UNSET, signing_key := none }).1.ttl_seconds
      = 30 := by
  have h := C6_merge_config 0
    { length := 8, format := RANDOM_FORMAT_UNSET,
      include_timestamp := RANDOM_ENABLED_UNSET, prefix_s := none,
      suffix_s := none, ttl_seconds := RANDOM_TTL_UNSET, url_pattern := none,
      token_specs := [], custom_alphabet := none,
      alphabet_grouping := RANDOM_GROUPING_UNSET,
      expiry_seconds := RANDOM_EXPIRY_UNSET,
      encode_metadata := RANDOM_ENABLED_UNSET, signing_key := none }
    { length := RANDOM_LENGTH_UNSET, format := RANDOM_FORMAT_UNSET,
      include_timestamp := RANDOM_ENABLED_UNSET, prefix_s := none,
      suffix_s := none, ttl_seconds := 30, url_pattern := none,
      token_specs := [], custom_alphabet := none,
      alphabet_grouping := RANDOM_GROUPING_UNSET,
      expiry_seconds := RANDOM_EXPIRY_UNSET,
      encode_metadata := RANDOM_ENABLED_UNSET, signing_key := none }
  exact ⟨h.1.2 rfl, h.2.2.2.2.2.1.1 (by decide)⟩

/-! ## Claims C8 and C10: cache ownership and frame of the merge -/

/-- **C8**: after a merge, every token definition in the merged list has an
empty cache (`cached_token = NULL`, `cache_time = 0`) and its own freshly
created mutex (an identity at or above the allocation counter, pairwise
distinct within the merged list), regardless of the cache state of the
corresponding parent or child definitions. -/
theorem C8_merge_empty_cache_fresh_mutex (next_id : Nat)
    (parent child : random_config) :
    (∀ s ∈ (random_merge_config next_id parent child).1.token_specs,
       s.cached_token = none ∧ s.cache_time = 0 ∧
       ∃ j, s.cache_mutex = some j ∧ next_id ≤ j) ∧
    ((random_merge_config next_id parent child).1.token_specs.map
       (fun s => s.cache_mutex)).Nodup := by
  have hspecs := merge_token_specs_eq next_id parent child
  set psp := (copy_specs_bounded next_id 0 parent.token_specs).1 with hpsp
  set csp := (copy_specs_bounded (copy_specs_bounded next_id 0 parent.token_specs).2
    psp.length child.token_specs).1 with hcsp
  have hid1 : (copy_specs_bounded next_id 0 parent.token_specs).2 =
      next_id + psp.length := copy_specs_snd parent.token_specs next_id 0
  constructor
  · intro s hs
    rw [hspecs] at hs
    rcases List.mem_append.mp hs with h | h
    · obtain ⟨h1, h2, j, hj, hj1, hj2⟩ :=
        copy_specs_mutex_range parent.token_specs next_id 0 s h
      exact ⟨h1, h2, j, hj, hj1⟩
    · obtain ⟨h1, h2, j, hj, hj1, hj2⟩ :=
        copy_specs_mutex_range child.token_specs
          (copy_specs_bounded next_id 0 parent.token_specs).2 psp.length s h
      exact ⟨h1, h2, j, hj, by omega⟩
  · rw [hspecs, List.map_append]
    rw [List.nodup_append]
    refine ⟨copy_specs_mutex_nodup parent.token_specs next_id 0,
      copy_specs_mutex_nodup child.token_specs _ psp.length, ?_⟩
    intro x hx hy
    rcases List.mem_map.mp hx with ⟨s, hs, hsx⟩
    rcases List.mem_map.mp hy with ⟨t, ht, htx⟩
    obtain ⟨_, _, j, hj, hj1, hj2⟩ :=
      copy_specs_mutex_range parent.token_specs next_id 0 s hs
    obtain ⟨_, _, j', hj', hj1', hj2'⟩ :=
      copy_specs_mutex_range child.token_specs
        (copy_specs_bounded next_id 0 parent.token_specs).2 psp.length t ht
    rw [← hsx] at htx
    rw [hj, hj'] at htx
    have hji : j' = j := Option.some.inj htx
    have hb : psp.length = (copy_specs_bounded next_id 0 parent.token_specs).1.length :=
      congrArg List.length hpsp
    omega

/-- Witness for C8 on the demo configurations, whose parent and child
definitions both carry live cache state. -/
theorem C8_merge_empty_cache_fresh_mutex_witness :
    (∀ s ∈ (random_merge_config 5 demo_parent demo_child).1.token_specs,
       s.cached_token = none ∧ s.cache_time = 0 ∧
       ∃ j, s.cache_mutex = some j ∧ 5 ≤ j) ∧
    ((random_merge_config 5 demo_parent demo_child).1.token_specs.map
       (fun s => s.cache_mutex)).Nodup :=
  C8_merge_empty_cache_fresh_mutex 5 demo_parent demo_child

/-- **C10**: the merge mutates neither input (it is a pure function of the
two configurations in this embedding) and every node of the merged list is
a freshly allocated copy: if every mutex identity in the parent and child
predates the allocation counter, then no merged definition shares its mutex
(hence its cache cell) with any parent or child definition. -/
theorem C10_merge_fresh_copies (next_id : Nat) (parent child : random_config)
    (h : ∀ t ∈ parent.token_specs ++ child.token_specs, ∀ j,
      t.cache_mutex = some j → j < next_id) :
    ∀ s ∈ (random_merge_config next_id parent child).1.token_specs,
      ∀ t ∈ parent.token_specs ++ child.token_specs,
        s.cache_mutex ≠ t.cache_mutex := by
  intro s hs t ht
  have hspecs := merge_token_specs_eq next_id parent child
  rw [hspecs] at hs
  have hs' : ∃ j, s.cache_mutex = some j ∧ next_id ≤ j := by
    rcases List.mem_append.mp hs with hm | hm
    · obtain ⟨_, _, j, hj, hj1, _⟩ :=
        copy_specs_mutex_range parent.token_specs next_id 0 s hm
      exact ⟨j, hj, hj1⟩
    · obtain ⟨_, _, j, hj, hj1, _⟩ :=
        copy_specs_mutex_range child.token_specs
          (copy_specs_bounded next_id 0 parent.token_specs).2
          (copy_specs_bounded next_id 0 parent.token_specs).1.length s hm
      have hid1 := copy_specs_snd parent.token_specs next_id 0
      exact ⟨j, hj, by omega⟩
  obtain ⟨j, hj, hj1⟩ := hs'
  rw [hj]
  cases htm : t.cache_mutex with
  | none => simp
  | some j' =>
      have := h t ht j' htm
      intro hcontra
      have : j = j' := by injection hcontra
      omega

/-- Witness for C10 on the demo configurations (all input mutex identities
are below the counter 5). -/
theorem C10_merge_fresh_copies_witness :
    (∀ t ∈ demo_parent.token_specs ++ demo_child.token_specs, ∀ j,
      t.cache_mutex = some j → j < 5) ∧
    (∀ s ∈ (random_merge_config 5 demo_parent demo_child).1.token_specs,
      ∀ t ∈ demo_parent.token_specs ++ demo_child.token_specs,
        s.cache_mutex ≠ t.cache_mutex) :=
  ⟨by decide, C10_merge_fresh_copies 5 demo_parent demo_child (by decide)⟩

/-! ## Claim C5: TTL cache semantics -/

/-- **C5**: with effective TTL `t > 0` and a cached value present (and the
cache usable), letting `elapsed = apr_time_sec(now - cacheTimestamp)`:
if `0 ≤ elapsed < t` the cached string itself is returned with the cell
unchanged (no regeneration — the result does not depend on the CSPRNG);
if `elapsed < 0` the entry is invalidated (value cleared, timestamp
zeroed) and the call behaves exactly as with an empty cache cell (a miss);
if `elapsed ≥ t` the call takes the fresh-generation path. -/
theorem C5_cache_ttl (hmac : String → String → List Nat) (cfg : random_config)
    (spec : Option random_token_spec)
    (default_length default_format default_timestamp : Int)
    (default_pref default_suffix : Option String) (default_ttl : Int)
    (cell : CacheCell) (now : Int) (rng : Option (List Nat)) (tok : String)
    (htok : cell.cached_token = some tok)
    (httl : 0 < final_ttl_of spec default_ttl) :
    (0 ≤ apr_time_sec (now - cell.cache_time) →
      apr_time_sec (now - cell.cache_time) < final_ttl_of spec default_ttl →
      random_generate_token_from_spec hmac cfg spec default_length default_format
        default_timestamp default_pref default_suffix default_ttl cell true now rng
        = (some tok, cell)) ∧
    (apr_time_sec (now - cell.cache_time) < 0 →
      cache_read (final_ttl_of spec default_ttl) true cell now =
        (none, { cached_token := none, cache_time := 0 }) ∧
      random_generate_token_from_spec hmac cfg spec default_length default_format
        default_timestamp default_pref default_suffix default_ttl cell true now rng
        = random_generate_token_from_spec hmac cfg spec default_length default_format
            default_timestamp default_pref default_suffix default_ttl
            { cached_token := none, cache_time := 0 } true now rng) ∧
    (final_ttl_of spec default_ttl ≤ apr_time_sec (now - cell.cache_time) →
      random_generate_token_from_spec hmac cfg spec default_length default_format
        default_timestamp default_pref default_suffix default_ttl cell true now rng
        = generate_fresh_token hmac cfg (final_format_of spec default_format)
            (final_timestamp_of spec default_timestamp)
            (final_prefix_of spec default_pref) (final_suffix_of spec default_suffix)
            (final_ttl_of spec default_ttl) cell true now rng) := by
  refine ⟨?_, ?_, ?_⟩
  · intro h0 h1
    have hread : cache_read (final_ttl_of spec default_ttl) true cell now
        = (some tok, cell) := by
      simp [cache_read, httl, htok, not_lt.mpr h0, h1]
    simp [random_generate_token_from_spec, hread]
  · intro hneg
    have hread : cache_read (final_ttl_of spec default_ttl) true cell now
        = (none, { cached_token := none, cache_time := 0 }) := by
      simp [cache_read, httl, htok, hneg]
    have hread' : cache_read (final_ttl_of spec default_ttl) true
        { cached_token := none, cache_time := 0 } now
        = (none, { cached_token := none, cache_time := 0 }) := by
      simp [cache_read]
    refine ⟨hread, ?_⟩
    simp [random_generate_token_from_spec, hread, hread']
  · intro hge
    have hread : cache_read (final_ttl_of spec default_ttl) true cell now
        = (none, cell) := by
      simp [cache_read, httl, htok, not_lt.mpr (le_trans (le_of_lt httl) hge),
        not_lt.mpr hge]
    simp [random_generate_token_from_spec, hread]

/-- Witness for C5: a hit two seconds into a five-second TTL returns the
cached string unchanged, even with the CSPRNG unavailable (`rng = none`). -/
theorem C5_cache_ttl_witness :
    random_generate_token_from_spec (fun _ _ => []) demo_parent none 16
        RANDOM_FORMAT_BASE64 0 none none 5
        { cached_token := some "X", cache_time := 0 } true 2000000 none
      = (some "X", { cached_token := some "X", cache_time := 0 }) := by
  have h := (C5_cache_ttl (fun _ _ => []) demo_parent none 16
    RANDOM_FORMAT_BASE64 0 none none 5
    { cached_token := some "X", cache_time := 0 } 2000000 none "X"
    rfl (by decide)).1 (by decide) (by decide)
  exact h

/-! ## Claim C7: assembly order on a cache miss -/

/-- **C7**: on a cache miss (empty cell) with a successful CSPRNG draw, the
returned token is the encoded string, then the `"{epochSeconds}-"` prefix
when the timestamp flag is set, then the metadata wrapper when metadata
encoding is enabled with expiry > 0 and a signing key configured, then the
configured prefix/suffix around the result; and exactly this final affixed
string together with the current timestamp is written into the cache when
the effective TTL is positive (and the cache is usable). -/
theorem C7_miss_assembly (hmac : String → String → List Nat) (cfg : random_config)
    (spec : Option random_token_spec)
    (default_length default_format default_timestamp : Int)
    (default_pref default_suffix : Option String) (default_ttl : Int)
    (cell : CacheCell) (cache_avail : Bool) (now : Int) (bytes : List Nat)
    (E : String)
    (hmiss : cell.cached_token = none)
    (hE : random_generate_string_ex (some bytes)
        (eff_format (final_format_of spec default_format) cfg)
        cfg.custom_alphabet (final_alphabet_grouping_of cfg) = some E) :
    random_generate_token_from_spec hmac cfg spec default_length default_format
      default_timestamp default_pref default_suffix default_ttl cell
      cache_avail now (some bytes) =
    (let s1 := if final_timestamp_of spec default_timestamp ≠ 0 then
        toString (apr_time_sec now) ++ "-" ++ E
      else E
     let s2 := if final_encode_metadata_of cfg ≠ 0 ∧ 0 < final_expiry_seconds_of cfg ∧
          cfg.signing_key.isSome then
        random_encode_with_metadata hmac (apr_time_sec now) s1
          (final_expiry_seconds_of cfg) cfg.signing_key
      else s1
     let T := if (final_prefix_of spec default_pref).isSome ∨
          (final_suffix_of spec default_suffix).isSome then
        (final_prefix_of spec default_pref).getD "" ++ s2 ++
          (final_suffix_of spec default_suffix).getD ""
      else s2
     (some T,
      if 0 < final_ttl_of spec default_ttl ∧ cache_avail then
        { cached_token := some T, cache_time := now : CacheCell }
      else cell)) := by
  have hread : cache_read (final_ttl_of spec default_ttl) cache_avail cell now
      = (none, cell) := by
    simp [cache_read, hmiss]
  simp only [random_generate_token_from_spec, hread, generate_fresh_token, hE]

/-- Witness for C7: one byte `0xAB` in hex format at `now = 5 s`, timestamp
flag on, metadata signing on, prefix `p-`, suffix `-s`, TTL 10: the token
is `p-` + (`65:` + `5-ab` + `:` + 64-hex HMAC) + `-s` and exactly that
string with timestamp `now` is written to the cache. -/
theorem C7_miss_assembly_witness :
    random_generate_token_from_spec (fun _ _ => List.replicate 32 0) demo_meta_cfg
      none 1 RANDOM_FORMAT_HEX 1 (some "p-") (some "-s") 10
      { cached_token := none, cache_time := 0 } true 5000000 (some [0xAB])
    = (some ("p-65:5-ab:0000000000000000000000000000000000000000000000000000000000000000-s"),
       { cached_token :=
           some "p-65:5-ab:0000000000000000000000000000000000000000000000000000000000000000-s",
         cache_time := 5000000 }) := by
  rw [C7_miss_assembly (fun _ _ => List.replicate 32 0) demo_meta_cfg none 1
    RANDOM_FORMAT_HEX 1 (some "p-") (some "-s") 10
    { cached_token := none, cache_time := 0 } true 5000000 [0xAB] "ab"
    rfl (by decide)]
  decide

/-! ## Helper lemmas: bitstream arithmetic -/

lemma nat_of_bits_from (a : Nat) (bs : List Bool) :
    bs.foldl (fun x b => 2 * x + (if b then 1 else 0)) a
      = a * 2 ^ bs.length + nat_of_bits bs := by
  induction bs generalizing a with
  | nil => simp [nat_of_bits]
  | cons b t ih =>
      simp only [List.foldl_cons, nat_of_bits, List.length_cons]
      rw [ih, ih (2 * 0 + (if b then 1 else 0))]
      ring

lemma nat_of_bits_cons (b : Bool) (t : List Bool) :
    nat_of_bits (b :: t) = (if b then 1 else 0) * 2 ^ t.length + nat_of_bits t := by
  have h : nat_of_bits (b :: t)
      = (2 * 0 + if b then 1 else 0) * 2 ^ t.length + nat_of_bits t := by
    show List.foldl (fun a b => 2 * a + if b then 1 else 0)
      (2 * 0 + if b then 1 else 0) t = _
    exact nat_of_bits_from _ t
  simpa using h

lemma nat_of_bits_append (xs ys : List Bool) :
    nat_of_bits (xs ++ ys) = nat_of_bits xs * 2 ^ ys.length + nat_of_bits ys := by
  show List.foldl _ 0 (xs ++ ys) = _
  rw [List.foldl_append]
  exact nat_of_bits_from _ ys

lemma nat_of_bits_lt (bs : List Bool) : nat_of_bits bs < 2 ^ bs.length := by
  induction bs with
  | nil => simp [nat_of_bits]
  | cons b t ih =>
      rw [nat_of_bits_cons]
      have h2 : (2 : Nat) ^ (b :: t).length = 2 * 2 ^ t.length := by
        rw [List.length_cons, pow_succ]; ring
      rw [h2]
      by_cases hb : b <;> simp [hb] <;> omega

lemma nat_of_bits_replicate_false (n : Nat) :
    nat_of_bits (List.replicate n false) = 0 := by
  induction n with
  | zero => rfl
  | succ m ih => rw [List.replicate_succ, nat_of_bits_cons]; simp [ih]

lemma byte_bits_length (b : Nat) : (byte_bits b).length = 8 := rfl

lemma nat_of_bits_byte : ∀ b < 256, nat_of_bits (byte_bits b) = b := by decide

lemma bits_of_bytes_cons (b : Nat) (data : List Nat) :
    bits_of_bytes (b :: data) = byte_bits b ++ bits_of_bytes data := by
  simp [bits_of_bytes]

lemma bits_of_bytes_length (data : List Nat) :
    (bits_of_bytes data).length = 8 * data.length := by
  induction data with
  | nil => rfl
  | cons b t ih =>
      rw [bits_of_bytes_cons, List.length_append, byte_bits_length, ih,
        List.length_cons]
      ring

/-! ## Helper lemmas: chunking -/

lemma full_chunks_small {k : Nat} {bs : List Bool} (h : ¬ k ≤ bs.length)
    (fuel : Nat) : full_chunks k fuel bs = ([], bs) := by
  cases fuel <;> simp [full_chunks, h]

lemma full_chunks_fuel_irrel {k : Nat} (hk : 0 < k) :
    ∀ (f1 f2 : Nat) (bs : List Bool), bs.length ≤ f1 → bs.length ≤ f2 →
      full_chunks k f1 bs = full_chunks k f2 bs := by
  intro f1
  induction f1 with
  | zero =>
      intro f2 bs h1 h2
      have hbs : bs = [] := List.eq_nil_of_length_eq_zero (by omega)
      subst hbs
      rw [full_chunks_small (by simp only [List.length_nil]; omega) f2]
      rfl
  | succ f ih =>
      intro f2 bs h1 h2
      by_cases hkb : k ≤ bs.length
      · obtain ⟨g, rfl⟩ : ∃ g, f2 = g + 1 := ⟨f2 - 1, by omega⟩
        show (if k ≤ bs.length then _ else _) = (if k ≤ bs.length then _ else _)
        rw [if_pos hkb, if_pos hkb]
        have hdrop : (bs.drop k).length = bs.length - k := by simp
        rw [ih g (bs.drop k) (by omega) (by omega)]
      · rw [full_chunks_small hkb, full_chunks_small hkb]

lemma full_chunks_cons_eq {k : Nat} (hk : 0 < k) {bs : List Bool}
    (hkb : k ≤ bs.length) :
    full_chunks k bs.length bs =
      (nat_of_bits (bs.take k) :: (full_chunks k (bs.drop k).length (bs.drop k)).1,
       (full_chunks k (bs.drop k).length (bs.drop k)).2) := by
  obtain ⟨m, hm⟩ : ∃ m, bs.length = m + 1 := ⟨bs.length - 1, by omega⟩
  rw [hm]
  show (if k ≤ bs.length then _ else _) = _
  rw [if_pos hkb]
  have hdrop : (bs.drop k).length = bs.length - k := by simp
  rw [full_chunks_fuel_irrel hk m (bs.drop k).length (bs.drop k) (by omega) (le_refl _)]

lemma full_chunks_props {k : Nat} (hk : 0 < k) :
    ∀ (fuel : Nat) (bs : List Bool), bs.length ≤ fuel →
      (full_chunks k fuel bs).1.length = bs.length / k ∧
      (full_chunks k fuel bs).2 = bs.drop (k * (bs.length / k)) ∧
      (full_chunks k fuel bs).2.length = bs.length % k := by
  intro fuel
  induction fuel with
  | zero =>
      intro bs h
      have hbs : bs = [] := List.eq_nil_of_length_eq_zero (by omega)
      subst hbs
      simp [full_chunks]
  | succ f ih =>
      intro bs h
      by_cases hkb : k ≤ bs.length
      · have hdrop : (bs.drop k).length = bs.length - k := by simp
        obtain ⟨ih1, ih2, ih3⟩ := ih (bs.drop k) (by omega)
        have hunfold : full_chunks k (f + 1) bs
            = (nat_of_bits (bs.take k) :: (full_chunks k f (bs.drop k)).1,
               (full_chunks k f (bs.drop k)).2) := by
          simp only [full_chunks, if_pos hkb]
        rw [hunfold]
        have hq : bs.length / k = (bs.length - k) / k + 1 :=
          Nat.div_eq_sub_div hk hkb
        have hm : bs.length % k = (bs.length - k) % k :=
          Nat.mod_eq_sub_mod hkb
        refine ⟨?_, ?_, ?_⟩
        · simp only [List.length_cons, ih1, hdrop]
          omega
        · simp only [ih2, hdrop, List.drop_drop]
          congr 1
          rw [hq]
          ring
        · simp only [ih3, hdrop]
          omega
      · rw [full_chunks_small hkb]
        have hlt : bs.length < k := by omega
        refine ⟨by simp [Nat.div_eq_of_lt hlt], ?_, by simp [Nat.mod_eq_of_lt hlt]⟩
        simp [Nat.div_eq_of_lt hlt]

lemma full_chunks_append {k : Nat} (hk : 0 < k) :
    ∀ (n : Nat) (xs ys : List Bool), xs.length ≤ n →
      (full_chunks k (xs ++ ys).length (xs ++ ys)).1 =
        (full_chunks k xs.length xs).1 ++
          (full_chunks k ((full_chunks k xs.length xs).2 ++ ys).length
            ((full_chunks k xs.length xs).2 ++ ys)).1 ∧
      (full_chunks k (xs ++ ys).length (xs ++ ys)).2 =
        (full_chunks k ((full_chunks k xs.length xs).2 ++ ys).length
          ((full_chunks k xs.length xs).2 ++ ys)).2 := by
  intro n
  induction n with
  | zero =>
      intro xs ys h1
      have hxs : xs = [] := List.eq_nil_of_length_eq_zero (by omega)
      subst hxs
      simp [full_chunks]
  | succ n ih =>
      intro xs ys h1
      by_cases hkx : k ≤ xs.length
      · have hkxy : k ≤ (xs ++ ys).length := by
          rw [List.length_append]; omega
        rw [full_chunks_cons_eq hk hkxy, full_chunks_cons_eq hk hkx]
        have htake : (xs ++ ys).take k = xs.take k := by
          rw [List.take_append_eq_append_take, Nat.sub_eq_zero_of_le hkx]
          simp
        have hdrop : (xs ++ ys).drop k = xs.drop k ++ ys := by
          rw [List.drop_append_eq_append_drop, Nat.sub_eq_zero_of_le hkx]
          simp
        have hlen : (xs.drop k).length ≤ n := by
          simp only [List.length_drop]; omega
        obtain ⟨iha, ihb⟩ := ih (xs.drop k) ys hlen
        rw [hdrop, htake]
        refine ⟨?_, ?_⟩
        · rw [iha]
          simp
        · rw [ihb]
      · rw [full_chunks_small hkx]
        simp

/-! ## Helper lemmas: accumulator arithmetic

The C encoder keeps the pending bits as the low `bits_available` bits of
`value`; these lemmas relate the C extractions to `nat_of_bits` of the
pending bit list. -/

lemma one_shiftLeft_eq (k : Nat) : (1 : Nat) <<< k = 2 ^ k := by
  rw [Nat.shiftLeft_eq, one_mul]

lemma mod_mul_split {a r m c : Nat} (hr : r < c) :
    (a * c + r) % (m * c) = (a % m) * c + r := by
  rcases Nat.eq_zero_or_pos m with hm | hm
  · subst hm; simp
  · have h1 : a * c + r = (m * c) * (a / m) + ((a % m) * c + r) := by
      conv_lhs => rw [← Nat.div_add_mod a m]
      ring
    rw [h1, Nat.mul_add_mod]
    have hlt : (a % m) * c + r < m * c := by
      have h2 : a % m + 1 ≤ m := Nat.mod_lt a hm
      calc (a % m) * c + r < (a % m) * c + c := by omega
        _ = (a % m + 1) * c := by ring
        _ ≤ m * c := Nat.mul_le_mul_right c h2
    exact Nat.mod_eq_of_lt hlt

lemma nat_of_bits_split {cur : List Bool} {bits k : Nat}
    (hlen : cur.length = bits) (hkb : k ≤ bits) :
    nat_of_bits cur
      = nat_of_bits (cur.take k) * 2 ^ (bits - k) + nat_of_bits (cur.drop k) ∧
    nat_of_bits (cur.drop k) < 2 ^ (bits - k) := by
  have hlen2 : (cur.drop k).length = bits - k := by simp [hlen]
  constructor
  · conv_lhs => rw [← List.take_append_drop k cur]
    rw [nat_of_bits_append, hlen2]
  · have h := nat_of_bits_lt (cur.drop k)
    rwa [hlen2] at h

lemma extract_top_bits {value bits k : Nat} {cur : List Bool}
    (hlen : cur.length = bits) (hval : value % 2 ^ bits = nat_of_bits cur)
    (hkb : k ≤ bits) :
    (value >>> (bits - k)) &&& (2 ^ k - 1) = nat_of_bits (cur.take k) := by
  obtain ⟨hN, hlt⟩ := nat_of_bits_split hlen hkb
  rw [Nat.and_pow_two_sub_one_eq_mod, Nat.shiftRight_eq_div_pow]
  have h2 : (2 : Nat) ^ (bits - k) * 2 ^ k = 2 ^ bits := by
    rw [← pow_add]; congr 1; omega
  rw [← Nat.mod_mul_right_div_self, h2, hval, hN]
  rw [mul_comm (nat_of_bits (cur.take k)) (2 ^ (bits - k)),
    Nat.mul_add_div (by positivity), Nat.div_eq_of_lt hlt]
  omega

lemma remaining_bits {value bits k : Nat} {cur : List Bool}
    (hlen : cur.length = bits) (hval : value % 2 ^ bits = nat_of_bits cur)
    (hkb : k ≤ bits) :
    value % 2 ^ (bits - k) = nat_of_bits (cur.drop k) := by
  obtain ⟨hN, hlt⟩ := nat_of_bits_split hlen hkb
  have h1 : value % 2 ^ (bits - k) = (value % 2 ^ bits) % 2 ^ (bits - k) :=
    (Nat.mod_mod_of_dvd value (pow_dvd_pow 2 (by omega))).symm
  rw [h1, hval, hN, mul_comm, Nat.mul_add_mod,
    Nat.mod_eq_of_lt hlt]

lemma push_byte_bits {value bits : Nat} {cur : List Bool} {b : Nat}
    (hlen : cur.length = bits) (hval : value % 2 ^ bits = nat_of_bits cur)
    (hb : b < 256) (hbits : bits + 8 ≤ 64) :
    (((value <<< 8) ||| b) % 2 ^ 64) % 2 ^ (bits + 8)
      = nat_of_bits (cur ++ byte_bits b) := by
  rw [Nat.mod_mod_of_dvd _ (pow_dvd_pow 2 hbits)]
  have hor : (value <<< 8) ||| b = value * 2 ^ 8 + b := by
    rw [Nat.shiftLeft_eq, mul_comm value (2 ^ 8)]
    exact (Nat.mul_add_lt_is_or hb value).symm
  have h28 : (2 : Nat) ^ (bits + 8) = 2 ^ bits * 2 ^ 8 := by rw [pow_add]
  rw [hor, h28, mod_mul_split (by simpa using hb), hval,
    nat_of_bits_append, byte_bits_length, nat_of_bits_byte b hb]

lemma flush_extract {value bits k : Nat} {cur : List Bool}
    (hlen : cur.length = bits) (hval : value % 2 ^ bits = nat_of_bits cur)
    (hbk : bits ≤ k) :
    (value <<< (k - bits)) &&& (2 ^ k - 1)
      = nat_of_bits (cur ++ List.replicate (k - bits) false) := by
  rw [Nat.and_pow_two_sub_one_eq_mod, Nat.shiftLeft_eq]
  have hk2 : (2 : Nat) ^ k = 2 ^ bits * 2 ^ (k - bits) := by
    rw [← pow_add]; congr 1; omega
  have hsplit := mod_mul_split (a := value) (m := 2 ^ bits)
    (c := 2 ^ (k - bits)) (r := 0) (by positivity)
  rw [hk2]
  have h0 : value * 2 ^ (k - bits) % (2 ^ bits * 2 ^ (k - bits))
      = (value % 2 ^ bits) * 2 ^ (k - bits) := by
    have := hsplit
    simpa using this
  rw [h0, hval, nat_of_bits_append, List.length_replicate,
    nat_of_bits_replicate_false]
  omega

/-! ## The inner emission loop

For a power-of-two alphabet every extracted index is in range, so one
symbol is emitted per `k` consumed bits; under the capacity bound the
buffer-full early return never fires and every due separator fits. -/

lemma emit_symbols_spec (alpha : List Char) (alphabet_len k cap : Nat) (g : Int)
    (lb : Bool) (S : Nat) (hk : 0 < k) (halen : alphabet_len = 2 ^ k)
    (halpha : alpha.length = alphabet_len) (hdash : '-' ∉ alpha)
    (hcap : S + S / g.toNat + 4 ≤ cap) :
    ∀ (fuel : Nat) (st : CustomEncSt) (cur : List Bool),
      st.aborted = false →
      st.bits_available ≤ fuel →
      cur.length = st.bits_available →
      st.value % 2 ^ st.bits_available = nat_of_bits cur →
      st.out.length ≤ st.pos + st.pos / g.toNat →
      st.pos + st.bits_available / k ≤ S →
      ∃ Δ : List Char,
        emit_symbols alpha alphabet_len k cap g lb fuel st =
          { value := st.value, bits_available := st.bits_available % k,
            pos := st.pos + st.bits_available / k,
            out := st.out ++ Δ, aborted := false } ∧
        Δ.filter (fun c => c ≠ '-') =
          ((full_chunks k fuel cur).1).map (fun i => alpha.getD i ' ') ∧
        Δ.count '-' = (if 0 < g ∧ lb = false then
            (st.pos + st.bits_available / k) / g.toNat - st.pos / g.toNat
          else 0) ∧
        (st.out ++ Δ).length ≤ st.pos + st.bits_available / k
          + (st.pos + st.bits_available / k) / g.toNat ∧
        (∀ c ∈ Δ, c ∈ alpha ∨ c = '-') ∧
        (lb = true → ∀ c ∈ Δ, c ∈ alpha) := by
  intro fuel
  induction fuel with
  | zero =>
      intro st cur hab hfuel hlen hval hout hpos
      have hb0 : st.bits_available = 0 := by omega
      have h0 : emit_symbols alpha alphabet_len k cap g lb 0 st = st := rfl
      refine ⟨[], ?_, by simp [full_chunks], by simp [hb0],
        by simp only [List.append_nil, hb0, Nat.zero_div, Nat.add_zero]; exact hout,
        by simp, by simp⟩
      rw [h0]
      cases st with
      | mk v b p o a =>
          simp only at hb0 hab
          subst hb0
          subst hab
          simp
  | succ fuel ih =>
      intro st cur hab hfuel hlen hval hout hpos
      by_cases hkb : k ≤ st.bits_available
      · -- a full symbol is available
        have hq1 : 1 ≤ st.bits_available / k := (Nat.one_le_div_iff hk).mpr hkb
        have hposS : st.pos + 1 ≤ S := by omega
        have hdm : st.pos / g.toNat ≤ S / g.toNat :=
          Nat.div_le_div_right (by omega)
        have hnoabort : ¬ (cap - 3 ≤ st.out.length) := by omega
        have hlen1 : (cur.take k).length = k := by
          simp only [List.length_take, hlen]; omega
        have htake : nat_of_bits (cur.take k) < 2 ^ k := by
          have h := nat_of_bits_lt (cur.take k)
          rwa [hlen1] at h
        have hidx : (st.value >>> (st.bits_available - k)) &&& ((1 <<< k) - 1)
            = nat_of_bits (cur.take k) := by
          rw [one_shiftLeft_eq]; exact extract_top_bits hlen hval hkb
        have hidxlt : (st.value >>> (st.bits_available - k)) &&& ((1 <<< k) - 1)
            < alphabet_len := by rw [hidx, halen]; exact htake
        have hsym_mem : alpha.getD (nat_of_bits (cur.take k)) ' ' ∈ alpha :=
          getD_mem_of_lt (by rw [halpha, halen]; exact htake)
        have hsym_ne : alpha.getD (nat_of_bits (cur.take k)) ' ' ≠ '-' :=
          fun h => hdash (h ▸ hsym_mem)
        -- the separator-fits guard is implied by the capacity bound
        have hsepfit : (st.out ++ [alpha.getD ((st.value >>> (st.bits_available - k))
            &&& ((1 <<< k) - 1)) ' ']).length < cap - 2 := by
          simp only [List.length_append, List.length_cons, List.length_nil]
          omega
        have hguard : (0 < g ∧ (st.pos + 1) % g.toNat = 0 ∧ lb = false ∧
              (st.out ++ [alpha.getD ((st.value >>> (st.bits_available - k))
                &&& ((1 <<< k) - 1)) ' ']).length < cap - 2)
            ↔ (0 < g ∧ (st.pos + 1) % g.toNat = 0 ∧ lb = false) := by
          constructor
          · rintro ⟨h1, h2, h3, _⟩; exact ⟨h1, h2, h3⟩
          · rintro ⟨h1, h2, h3⟩; exact ⟨h1, h2, h3, hsepfit⟩
        -- unfold one iteration
        have hstep : emit_symbols alpha alphabet_len k cap g lb (fuel + 1) st =
            emit_symbols alpha alphabet_len k cap g lb fuel
              { value := st.value, bits_available := st.bits_available - k,
                pos := st.pos + 1,
                out := (st.out ++ [alpha.getD ((st.value >>> (st.bits_available - k))
                    &&& ((1 <<< k) - 1)) ' ']) ++
                  (if 0 < g ∧ (st.pos + 1) % g.toNat = 0 ∧ lb = false then ['-']
                   else []),
                aborted := st.aborted } := by
          simp only [emit_symbols, if_pos hkb, if_neg hnoabort, if_pos hidxlt]
          congr 1
          rw [if_congr hguard rfl rfl]
          split
          · rfl
          · simp
        set sym := alpha.getD (nat_of_bits (cur.take k)) ' ' with hsym
        set sep : List Char :=
          (if 0 < g ∧ (st.pos + 1) % g.toNat = 0 ∧ lb = false then ['-'] else [])
          with hsep
        have hsymrw : alpha.getD ((st.value >>> (st.bits_available - k))
            &&& ((1 <<< k) - 1)) ' ' = sym := by rw [hidx]
        rw [hsymrw] at hstep
        -- the recursive state
        have hlen2 : (cur.drop k).length = st.bits_available - k := by
          simp [hlen]
        have hval2 : st.value % 2 ^ (st.bits_available - k)
            = nat_of_bits (cur.drop k) := remaining_bits hlen hval hkb
        have hdivsucc : (st.pos + 1) / g.toNat
            = st.pos / g.toNat + (if g.toNat ∣ st.pos + 1 then 1 else 0) :=
          Nat.succ_div st.pos g.toNat
        have hsepbound : ((st.out ++ [sym]) ++ sep).length
            ≤ (st.pos + 1) + (st.pos + 1) / g.toNat := by
          by_cases hs : 0 < g ∧ (st.pos + 1) % g.toNat = 0 ∧ lb = false
          · have hdvd : g.toNat ∣ st.pos + 1 :=
              Nat.dvd_iff_mod_eq_zero.mpr hs.2.1
            simp only [hsep, if_pos hs, List.length_append, List.length_cons,
              List.length_nil]
            rw [hdivsucc, if_pos hdvd]
            omega
          · have hmono : st.pos / g.toNat ≤ (st.pos + 1) / g.toNat :=
              Nat.div_le_div_right (by omega)
            simp only [hsep, if_neg hs, List.length_append, List.length_cons,
              List.length_nil]
            omega
        have hdiveq : st.bits_available / k = (st.bits_available - k) / k + 1 :=
          Nat.div_eq_sub_div hk hkb
        have hmodeq : st.bits_available % k = (st.bits_available - k) % k :=
          Nat.mod_eq_sub_mod hkb
        obtain ⟨Δ₂, hrec, hfil, hcnt, hbound, hmem, hpure⟩ := ih
          { value := st.value, bits_available := st.bits_available - k,
            pos := st.pos + 1, out := (st.out ++ [sym]) ++ sep,
            aborted := st.aborted }
          (cur.drop k) hab
          (show st.bits_available - k ≤ fuel by omega) hlen2 hval2 hsepbound
          (show st.pos + 1 + (st.bits_available - k) / k ≤ S by omega)
        dsimp only at hrec hfil hcnt hbound hmem hpure
        refine ⟨[sym] ++ sep ++ Δ₂, ?_, ?_, ?_, ?_, ?_, ?_⟩
        · rw [hstep, hrec]
          have e1 : (st.bits_available - k) % k = st.bits_available % k := hmodeq.symm
          have e2 : st.pos + 1 + (st.bits_available - k) / k
              = st.pos + st.bits_available / k := by omega
          simp [CustomEncSt.mk.injEq, e1, e2]
        · -- filter
          have hchunk : full_chunks k (fuel + 1) cur
              = (nat_of_bits (cur.take k) :: (full_chunks k fuel (cur.drop k)).1,
                 (full_chunks k fuel (cur.drop k)).2) := by
            simp only [full_chunks, if_pos (by omega : k ≤ cur.length)]
          rw [hchunk]
          have hsepfil : sep.filter (fun c => decide (c ≠ '-')) = [] := by
            rw [hsep]; split <;> simp
          have h1 : List.filter (fun c => decide (c ≠ '-')) [sym] = [sym] := by
            simp [hsym_ne]
          rw [List.filter_append, List.filter_append, hsepfil, hfil, h1]
          rw [hsym]
          simp
        · -- separator count
          have hsymcnt : List.count '-' [sym] = 0 := by
            simp [List.count_cons, hsym_ne]
          by_cases hglb : 0 < g ∧ lb = false
          · have hmono1 : st.pos / g.toNat ≤ (st.pos + 1) / g.toNat :=
              Nat.div_le_div_right (by omega)
            have hmono2 : (st.pos + 1) / g.toNat
                ≤ (st.pos + 1 + (st.bits_available - k) / k) / g.toNat :=
              Nat.div_le_div_right (by omega)
            have hsepcnt : sep.count '-'
                = (st.pos + 1) / g.toNat - st.pos / g.toNat := by
              by_cases hdv : (st.pos + 1) % g.toNat = 0
              · have hdvd : g.toNat ∣ st.pos + 1 :=
                  Nat.dvd_iff_mod_eq_zero.mpr hdv
                have hcond : 0 < g ∧ (st.pos + 1) % g.toNat = 0 ∧ lb = false :=
                  ⟨hglb.1, hdv, hglb.2⟩
                rw [hsep, if_pos hcond, hdivsucc, if_pos hdvd]
                simp
              · have hndvd : ¬ g.toNat ∣ st.pos + 1 := by
                  intro hc
                  exact hdv (Nat.dvd_iff_mod_eq_zero.mp hc)
                have hcond : ¬ (0 < g ∧ (st.pos + 1) % g.toNat = 0 ∧ lb = false) := by
                  tauto
                rw [hsep, if_neg hcond, hdivsucc, if_neg hndvd]
                simp only [List.count_nil]
                omega
            have e2 : st.pos + 1 + (st.bits_available - k) / k
                = st.pos + st.bits_available / k := by omega
            rw [e2] at hcnt hmono2
            rw [List.count_append, List.count_append, hsymcnt, hsepcnt, hcnt,
              if_pos hglb, if_pos hglb]
            omega
          · have hsepnil : sep = [] := by
              rw [hsep, if_neg (by tauto)]
            rw [List.count_append, List.count_append, hsymcnt, hsepnil, hcnt,
              if_neg hglb, if_neg hglb]
            simp only [List.count_nil]
        · -- output-length invariant at exit
          have e2 : st.pos + 1 + (st.bits_available - k) / k
              = st.pos + st.bits_available / k := by omega
          rw [e2] at hbound
          simp only [List.length_append] at hbound ⊢
          omega
        · -- membership
          intro c hc
          simp only [List.mem_append, List.mem_singleton] at hc
          rcases hc with (h | h) | h
          · exact Or.inl (by rw [h]; exact hsym_mem)
          · rw [hsep] at h
            rcases (by split at h <;> simp_all : c = '-') with rfl
            exact Or.inr rfl
          · exact hmem c h
        · -- last-byte purity
          intro hlb c hc
          have hsepnil : sep = [] := by
            rw [hsep, if_neg (by simp [hlb])]
          rw [hsepnil] at hc
          simp only [List.append_nil, List.mem_append, List.mem_singleton] at hc
          rcases hc with h | h
          · rw [h]; exact hsym_mem
          · exact hpure hlb c h
      · -- fewer than k bits remain: the loop exits
        have hstep : emit_symbols alpha alphabet_len k cap g lb (fuel + 1) st = st := by
          simp only [emit_symbols, if_neg hkb]
        have hb : st.bits_available < k := by omega
        have hbc : ¬ k ≤ cur.length := by omega
        refine ⟨[], ?_, ?_, ?_, ?_, by simp, by simp⟩
        · rw [hstep]
          cases st with
          | mk v b p o a =>
              simp only at hb hab
              subst hab
              simp [Nat.mod_eq_of_lt hb, Nat.div_eq_of_lt hb]
        · rw [full_chunks_small hbc (fuel + 1)]
          simp
        · rw [Nat.div_eq_of_lt hb]
          simp
        · simp only [List.append_nil, Nat.div_eq_of_lt hb, Nat.add_zero]
          exact hout

/-! ## The outer byte loop -/

lemma div_split (a m k : Nat) (hk : 0 < k) :
    (a + m) / k = a / k + (a % k + m) / k := by
  conv_lhs => rw [← Nat.div_add_mod a k]
  rw [Nat.add_assoc, Nat.mul_add_div hk]

lemma encode_bytes_spec (alpha : List Char) (alphabet_len k cap : Nat) (g : Int)
    (S : Nat) (hk : 0 < k) (hk8 : k ≤ 8) (halen : alphabet_len = 2 ^ k)
    (halpha : alpha.length = alphabet_len) (hdash : '-' ∉ alpha)
    (hcap : S + S / g.toNat + 4 ≤ cap) :
    ∀ (ds : List Nat) (st : CustomEncSt) (cur : List Bool),
      (∀ b ∈ ds, b < 256) →
      st.aborted = false →
      cur.length = st.bits_available →
      st.bits_available < k →
      st.value % 2 ^ st.bits_available = nat_of_bits cur →
      st.out.length ≤ st.pos + st.pos / g.toNat →
      st.pos + (st.bits_available + 8 * ds.length) / k ≤ S →
      ∃ Δ : List Char,
        encode_bytes alpha alphabet_len k cap g ds st =
          { value := (encode_bytes alpha alphabet_len k cap g ds st).value,
            bits_available := (st.bits_available + 8 * ds.length) % k,
            pos := st.pos + (st.bits_available + 8 * ds.length) / k,
            out := st.out ++ Δ, aborted := false } ∧
        (encode_bytes alpha alphabet_len k cap g ds st).value
            % 2 ^ ((st.bits_available + 8 * ds.length) % k)
          = nat_of_bits
              ((full_chunks k (cur ++ bits_of_bytes ds).length
                (cur ++ bits_of_bytes ds)).2) ∧
        (st.out ++ Δ).length
          ≤ (st.pos + (st.bits_available + 8 * ds.length) / k)
            + (st.pos + (st.bits_available + 8 * ds.length) / k) / g.toNat ∧
        Δ.filter (fun c => decide (c ≠ '-'))
          = ((full_chunks k (cur ++ bits_of_bytes ds).length
              (cur ++ bits_of_bytes ds)).1).map (fun i => alpha.getD i ' ') ∧
        Δ.count '-' = (if 0 < g ∧ ds ≠ [] then
            (st.pos + (st.bits_available + 8 * (ds.length - 1)) / k) / g.toNat
              - st.pos / g.toNat
          else 0) ∧
        (∀ c ∈ Δ, c ∈ alpha ∨ c = '-') ∧
        (ds ≠ [] → ∃ c, Δ.getLast? = some c ∧ c ∈ alpha) := by
  intro ds
  induction ds with
  | nil =>
      intro st cur hbytes hab hlen hblt hval hout hpos
      refine ⟨[], ?_, ?_, ?_, ?_, by simp, by simp, by simp⟩
      · have h0 : encode_bytes alpha alphabet_len k cap g [] st = st := rfl
        rw [h0]
        cases st with
        | mk v b p o a =>
            simp only at hab hblt
            subst hab
            simp only [List.length_nil, Nat.mul_zero, Nat.add_zero]
            simp [Nat.mod_eq_of_lt hblt, Nat.div_eq_of_lt hblt]
      · simp only [bits_of_bytes, List.map_nil, List.flatten_nil, List.append_nil,
          List.length_nil, Nat.mul_zero, Nat.add_zero]
        rw [full_chunks_small (by omega) cur.length, Nat.mod_eq_of_lt hblt]
        show st.value % 2 ^ st.bits_available = _
        exact hval
      · simp only [List.append_nil, List.length_nil, Nat.mul_zero, Nat.add_zero,
          Nat.div_eq_of_lt hblt]
        exact hout
      · simp only [bits_of_bytes, List.map_nil, List.flatten_nil, List.append_nil]
        rw [full_chunks_small (by omega) cur.length]
        simp
  | cons b ds' ih =>
      intro st cur hbytes hab hlen hblt hval hout hpos
      have hb256 : b < 256 := hbytes b (List.mem_cons_self b ds')
      have hbytes' : ∀ x ∈ ds', x < 256 :=
        fun x hx => hbytes x (List.mem_cons_of_mem b hx)
      -- the pushed state
      have hstep : encode_bytes alpha alphabet_len k cap g (b :: ds') st =
          encode_bytes alpha alphabet_len k cap g ds'
            (emit_symbols alpha alphabet_len k cap g ds'.isEmpty
              (st.bits_available + 8)
              { value := ((st.value <<< 8) ||| b) % 2 ^ 64,
                bits_available := st.bits_available + 8,
                pos := st.pos, out := st.out, aborted := false }) := by
        simp only [encode_bytes, hab, Bool.false_eq_true, if_neg, ite_false]
      set st1 : CustomEncSt :=
        { value := ((st.value <<< 8) ||| b) % 2 ^ 64,
          bits_available := st.bits_available + 8,
          pos := st.pos, out := st.out, aborted := false } with hst1
      set cur1 : List Bool := cur ++ byte_bits b with hcur1
      have hlen1 : cur1.length = st1.bits_available := by
        simp [hcur1, hst1, hlen, byte_bits_length]
      have hval1 : st1.value % 2 ^ st1.bits_available = nat_of_bits cur1 :=
        push_byte_bits hlen hval hb256 (by omega)
      have hpos1 : st1.pos + st1.bits_available / k ≤ S := by
        have hmono : (st.bits_available + 8) / k
            ≤ (st.bits_available + 8 * (ds'.length + 1)) / k :=
          Nat.div_le_div_right (by omega)
        simp only [hst1]
        simp only [List.length_cons] at hpos
        omega
      obtain ⟨Δ₁, hrec1, hfil1, hcnt1, hbound1, hmem1, hpure1⟩ :=
        emit_symbols_spec alpha alphabet_len k cap g ds'.isEmpty S hk halen
          halpha hdash hcap st1.bits_available st1 cur1 rfl (le_refl _)
          hlen1 hval1 hout hpos1
      set st2 : CustomEncSt :=
        { value := st1.value, bits_available := st1.bits_available % k,
          pos := st1.pos + st1.bits_available / k,
          out := st1.out ++ Δ₁, aborted := false } with hst2
      -- chunk bookkeeping for the byte just pushed
      have hfuel1 : cur1.length ≤ st1.bits_available := le_of_eq hlen1
      obtain ⟨hcp1, hcp2, hcp3⟩ := full_chunks_props hk st1.bits_available cur1 hfuel1
      set cur2 : List Bool := (full_chunks k st1.bits_available cur1).2 with hcur2
      have hlen2 : cur2.length = st2.bits_available := by
        rw [hcp3, hlen1]
      have hval2 : st2.value % 2 ^ st2.bits_available = nat_of_bits cur2 := by
        have hmul : k * (st1.bits_available / k) ≤ st1.bits_available := by
          rw [mul_comm]; exact Nat.div_mul_le_self _ _
        have hrem := remaining_bits (k := k * (st1.bits_available / k)) hlen1 hval1 hmul
        have hexp : st1.bits_available - k * (st1.bits_available / k)
            = st1.bits_available % k := by
          have hdm := Nat.div_add_mod st1.bits_available k
          omega
        rw [hexp] at hrem
        show st1.value % 2 ^ (st1.bits_available % k) = nat_of_bits cur2
        rw [hcp2, hlen1]
        exact hrem
      have hblt2 : st2.bits_available < k := Nat.mod_lt _ hk
      have hout2 : st2.out.length ≤ st2.pos + st2.pos / g.toNat := hbound1
      have hpos2 : st2.pos + (st2.bits_available + 8 * ds'.length) / k ≤ S := by
        have hsplit := div_split (st.bits_available + 8) (8 * ds'.length) k hk
        have h8 : st.bits_available + 8 + 8 * ds'.length
            = st.bits_available + 8 * (ds'.length + 1) := by ring
        rw [h8] at hsplit
        show st.pos + (st.bits_available + 8) / k
            + ((st.bits_available + 8) % k + 8 * ds'.length) / k ≤ S
        simp only [List.length_cons] at hpos
        omega
      obtain ⟨Δ₂, hrec2, hval2', hbound2, hfil2, hcnt2, hmem2, hlast2⟩ :=
        ih st2 cur2 hbytes' rfl hlen2 hblt2 hval2 hout2 hpos2
      -- list bookkeeping
      have hlist : cur ++ bits_of_bytes (b :: ds') = cur1 ++ bits_of_bytes ds' := by
        rw [bits_of_bytes_cons, hcur1, List.append_assoc]
      have happ := full_chunks_append hk cur1.length cur1 (bits_of_bytes ds')
        (le_refl _)
      rw [hlen1] at happ
      rw [← hcur2] at happ
      obtain ⟨happ1, happ2⟩ := happ
      -- arithmetic bookkeeping
      have hdivsplit := div_split (st.bits_available + 8) (8 * ds'.length) k hk
      have h8L : st.bits_available + 8 + 8 * ds'.length
          = st.bits_available + 8 * ((b :: ds').length) := by
        simp [List.length_cons]; ring
      have hmodsplit : ((st.bits_available + 8) % k + 8 * ds'.length) % k
          = (st.bits_available + 8 * ((b :: ds').length)) % k := by
        rw [Nat.mod_add_mod, h8L]
      refine ⟨Δ₁ ++ Δ₂, ?_, ?_, ?_, ?_, ?_, ?_, ?_⟩
      · rw [hstep, hrec1, hrec2]
        simp only [CustomEncSt.mk.injEq, hst2, hst1]
        refine ⟨trivial, ?_, ?_, ?_, trivial⟩
        · rw [Nat.mod_add_mod, h8L]
        · simp only [List.length_cons]
          have e : st.bits_available + 8 + 8 * ds'.length
              = st.bits_available + 8 * (ds'.length + 1) := by ring
          rw [e] at hdivsplit
          omega
        · simp [List.append_assoc]
      · rw [hstep, hrec1, hlist, happ2, ← hmodsplit]
        exact hval2'
      · have e : st.bits_available + 8 + 8 * ds'.length
            = st.bits_available + 8 * (ds'.length + 1) := by ring
        rw [e] at hdivsplit
        have hposF : st2.pos + (st2.bits_available + 8 * ds'.length) / k
            = st.pos + (st.bits_available + 8 * (b :: ds').length) / k := by
          simp only [hst2, hst1, List.length_cons]
          omega
        rw [hposF] at hbound2
        have hout12 : st2.out = st.out ++ Δ₁ := by rw [hst2, hst1]
        rw [hout12, List.append_assoc] at hbound2
        exact hbound2
      · rw [List.filter_append, hfil1, hfil2, hlist, happ1, List.map_append]
      · -- separator count
        have hne : (b :: ds') ≠ [] := List.cons_ne_nil b ds'
        rw [List.count_append]
        by_cases hg : 0 < g
        · rw [if_pos ⟨hg, hne⟩]
          cases ds' with
          | nil =>
              have hcnt1' : Δ₁.count '-' = 0 := by
                rw [hcnt1, if_neg]
                rintro ⟨-, hfalse⟩
                simp at hfalse
              have hcnt2' : Δ₂.count '-' = 0 := by
                rw [hcnt2, if_neg]
                rintro ⟨-, hfalse⟩
                exact hfalse rfl
              rw [hcnt1', hcnt2']
              simp only [List.length_cons, List.length_nil, Nat.zero_add,
                Nat.sub_self, Nat.mul_zero, Nat.add_zero]
              rw [Nat.div_eq_of_lt hblt]
              simp
          | cons b2 ds'' =>
              have hlbf : (b2 :: ds'').isEmpty = false := rfl
              rw [hlbf] at hcnt1
              have hne2 : (b2 :: ds'') ≠ [] := List.cons_ne_nil b2 ds''
              have hc1 : Δ₁.count '-'
                  = (st.pos + (st.bits_available + 8) / k) / g.toNat
                    - st.pos / g.toNat := by
                rw [hcnt1, if_pos ⟨hg, rfl⟩]
              have hc2 : Δ₂.count '-'
                  = (st.pos + (st.bits_available + 8) / k
                      + ((st.bits_available + 8) % k + 8 * ds''.length) / k)
                        / g.toNat
                    - (st.pos + (st.bits_available + 8) / k) / g.toNat := by
                rw [hcnt2, if_pos ⟨hg, hne2⟩]
                rfl
              have he : st.bits_available + 8 + 8 * ds''.length
                  = st.bits_available + 8 * (b2 :: ds'').length := by
                simp [List.length_cons]; ring
              have hMN : st.pos + (st.bits_available + 8) / k
                    + ((st.bits_available + 8) % k + 8 * ds''.length) / k
                  = st.pos + (st.bits_available + 8 * (b2 :: ds'').length) / k := by
                have hs := div_split (st.bits_available + 8) (8 * ds''.length) k hk
                rw [← he]
                omega
              rw [hMN] at hc2
              have hm1 : st.pos / g.toNat
                  ≤ (st.pos + (st.bits_available + 8) / k) / g.toNat :=
                Nat.div_le_div_right (Nat.le_add_right _ _)
              have hm2 : (st.pos + (st.bits_available + 8) / k) / g.toNat
                  ≤ (st.pos + (st.bits_available + 8 * (b2 :: ds'').length) / k)
                      / g.toNat := by
                apply Nat.div_le_div_right
                have hd : (st.bits_available + 8) / k
                    ≤ (st.bits_available + 8 * (b2 :: ds'').length) / k := by
                  apply Nat.div_le_div_right
                  have h1 : (1 : Nat) ≤ (b2 :: ds'').length := by simp
                  omega
                omega
              have hds2 : (b :: b2 :: ds'').length - 1 = (b2 :: ds'').length := by
                simp
              rw [hds2, hc1, hc2]
              omega
        · have hcnt1' : Δ₁.count '-' = 0 := by
            rw [hcnt1, if_neg]
            rintro ⟨hfalse, -⟩
            exact hg hfalse
          have hcnt2' : Δ₂.count '-' = 0 := by
            rw [hcnt2, if_neg]
            rintro ⟨hfalse, -⟩
            exact hg hfalse
          rw [hcnt1', hcnt2', if_neg]
          rintro ⟨hfalse, -⟩
          exact hg hfalse
      · intro c hc
        rcases List.mem_append.mp hc with h | h
        · exact hmem1 c h
        · exact hmem2 c h
      · -- the output ends with an alphabet symbol
        intro _
        cases ds' with
        | nil =>
            have hrecnil : encode_bytes alpha alphabet_len k cap g [] st2 = st2 :=
              rfl
            rw [hrecnil] at hrec2
            have hΔ₂ : Δ₂ = [] := by
              have h2 := congrArg CustomEncSt.out hrec2
              simp only [hst2] at h2
              have h3 := congrArg List.length h2
              simp at h3
              exact h3
            have hq1 : 1 ≤ st1.bits_available / k := by
              apply (Nat.one_le_div_iff hk).mpr
              simp only [hst1]
              omega
            have hfl : (Δ₁.filter (fun c => decide (c ≠ '-'))).length
                = st1.bits_available / k := by
              rw [hfil1, List.length_map, hcp1, hlen1]
            have hΔ₁ne : Δ₁ ≠ [] := by
              intro hnil
              have hcontra : (1 : Nat) ≤ 0 := by
                calc 1 ≤ st1.bits_available / k := hq1
                _ = (Δ₁.filter (fun c => decide (c ≠ '-'))).length := hfl.symm
                _ = 0 := by rw [hnil]; rfl
              exact absurd hcontra (by decide)
            have hpure : ∀ x ∈ Δ₁, x ∈ alpha := hpure1 rfl
            refine ⟨Δ₁.getLast hΔ₁ne, ?_, ?_⟩
            · rw [hΔ₂, List.append_nil]
              exact List.getLast?_eq_getLast Δ₁ hΔ₁ne
            · exact hpure _ (List.getLast_mem hΔ₁ne)
        | cons b2 ds'' =>
            obtain ⟨c, hc1, hc2⟩ := hlast2 (List.cons_ne_nil b2 ds'')
            have hΔ₂ne : Δ₂ ≠ [] := by
              intro hnil
              rw [hnil] at hc1
              simp at hc1
            refine ⟨c, ?_, hc2⟩
            rw [List.getLast?_append_of_ne_nil Δ₁ hΔ₂ne]
            exact hc1

/-! ## The full custom encoder

For a power-of-two alphabet of `2 ^ k` characters (`1 ≤ k ≤ 8`) not
containing `'-'`, the encoder realises exactly the spec's bitstream
semantics: the emitted symbols (separators aside) are the `k`-bit chunks
of the MSB-first bitstream, the final partial chunk zero-padded low. -/

lemma bits_needed_pow : ∀ k < 9, 1 ≤ k → bits_needed (2 ^ k) = k := by decide

lemma custom_alphabet_master (data : List Nat) (a : String) (k : Nat) (g : Int)
    (hdata : ∀ b ∈ data, b < 256) (hne : data ≠ [])
    (hk1 : 1 ≤ k) (hk8 : k ≤ 8) (hlen_a : a.length = 2 ^ k)
    (hdash : '-' ∉ a.toList) :
    ∃ Δ : List Char,
      random_encode_custom_alphabet data (some a) g = String.mk Δ ∧
      Δ.filter (fun c => decide (c ≠ '-'))
        = (spec_chunk_indices k (bits_of_bytes data)).map
            (fun i => a.toList.getD i ' ') ∧
      (Δ.filter (fun c => decide (c ≠ '-'))).length
        = (8 * data.length + k - 1) / k ∧
      Δ.count '-' =
        (if 0 < g then 8 * (data.length - 1) / k / g.toNat else 0) ∧
      (∀ c ∈ Δ, c ∈ a.toList ∨ c = '-') ∧
      (∃ c, Δ.getLast? = some c ∧ c ∈ a.toList) := by
  have hk : 0 < k := hk1
  have h2k : 2 ≤ 2 ^ k := by
    calc (2 : Nat) = 2 ^ 1 := rfl
    _ ≤ 2 ^ k := Nat.pow_le_pow_right (by norm_num) hk1
  have h2le : ¬ a.length < 2 := by rw [hlen_a]; omega
  have hbn : bits_needed a.length = k := by
    rw [hlen_a]; exact bits_needed_pow k (by omega) hk1
  have halpha : a.toList.length = a.length := rfl
  have hcap : (8 * data.length / k + 1)
        + (8 * data.length / k + 1) / g.toNat + 4
      ≤ max_output_len data.length k g := by
    simp only [max_output_len]
    have hbase : data.length * 8 / k = 8 * data.length / k := by rw [mul_comm]
    by_cases hg : 0 < g
    · rw [if_pos hg]
      have hSb : 8 * data.length / k + 1
          ≤ data.length * 8 / k + data.length * 2 + 10 := by omega
      have hdm : (8 * data.length / k + 1) / g.toNat
          ≤ (data.length * 8 / k + data.length * 2 + 10) / g.toNat :=
        Nat.div_le_div_right hSb
      omega
    · rw [if_neg hg]
      have hg0 : g.toNat = 0 := by omega
      rw [hg0]
      simp only [Nat.div_zero]
      omega
  obtain ⟨Δ₀, hrec, hval, hbound, hfil, hcnt, hmem, hlast⟩ :=
    encode_bytes_spec a.toList a.length k (max_output_len data.length k g) g
      (8 * data.length / k + 1) hk hk8 hlen_a halpha hdash hcap data
      { value := 0, bits_available := 0, pos := 0, out := [], aborted := false }
      [] hdata rfl rfl hk rfl (Nat.zero_le _)
      (by show (0 : Nat) + (0 + 8 * data.length) / k ≤ 8 * data.length / k + 1
          simp only [Nat.zero_add]
          omega)
  set stF : CustomEncSt := encode_bytes a.toList a.length k
    (max_output_len data.length k g) g data
    { value := 0, bits_available := 0, pos := 0, out := [], aborted := false }
    with hstF
  simp only [List.nil_append, List.length_nil, Nat.zero_add, Nat.zero_div,
    Nat.sub_zero] at hrec hval hbound hfil hcnt
  have habF : stF.aborted = false := by rw [hrec]
  have hbitsF : stF.bits_available = 8 * data.length % k := by rw [hrec]
  have houtF : stF.out = Δ₀ := by rw [hrec]
  have hmain : random_encode_custom_alphabet data (some a) g =
      (if 0 < stF.bits_available ∧
          stF.out.length < max_output_len data.length k g - 1 then
        if (stF.value <<< (k - stF.bits_available)) &&& ((1 <<< k) - 1)
            < a.length then
          String.mk (stF.out ++
            [a.toList.getD
              ((stF.value <<< (k - stF.bits_available)) &&& ((1 <<< k) - 1)) ' '])
        else String.mk stF.out
      else String.mk stF.out) := by
    simp only [random_encode_custom_alphabet, if_neg h2le, hbn, ← hstF, habF,
      Bool.false_eq_true, if_false]
  have hprops := full_chunks_props hk (bits_of_bytes data).length
    (bits_of_bytes data) (le_refl _)
  have hchunklen : (full_chunks k (bits_of_bytes data).length
        (bits_of_bytes data)).1.length = 8 * data.length / k := by
    rw [hprops.1, bits_of_bytes_length]
  have hlenL : (full_chunks k (bits_of_bytes data).length
        (bits_of_bytes data)).2.length = 8 * data.length % k := by
    rw [hprops.2.2, bits_of_bytes_length]
  by_cases hB : 8 * data.length % k = 0
  · -- the bitstream splits evenly: no flush symbol
    have hcond : ¬ (0 < stF.bits_available ∧
        stF.out.length < max_output_len data.length k g - 1) := by
      rw [hbitsF, hB]
      rintro ⟨h, -⟩
      exact absurd h (lt_irrefl 0)
    have hLnil : (full_chunks k (bits_of_bytes data).length
        (bits_of_bytes data)).2 = [] :=
      List.eq_nil_of_length_eq_zero (by rw [hlenL, hB])
    have hspec : spec_chunk_indices k (bits_of_bytes data)
        = (full_chunks k (bits_of_bytes data).length (bits_of_bytes data)).1 := by
      simp [spec_chunk_indices, hLnil]
    refine ⟨Δ₀, ?_, ?_, ?_, ?_, hmem, hlast hne⟩
    · rw [hmain, if_neg hcond, houtF]
    · rw [hfil, hspec]
    · rw [hfil, List.length_map, hchunklen]
      have harg : 8 * data.length + k - 1 = 8 * data.length + (k - 1) := by omega
      rw [harg]
      have hds := div_split (8 * data.length) (k - 1) k hk
      have h0 : (8 * data.length % k + (k - 1)) / k = 0 := by
        rw [hB]
        exact Nat.div_eq_of_lt (by omega)
      omega
    · by_cases hg : 0 < g
      · rw [hcnt, if_pos ⟨hg, hne⟩, if_pos hg]
      · rw [hcnt, if_neg (fun h => hg h.1), if_neg hg]
  · -- leftover bits: one flush symbol is appended
    have hbltk : 8 * data.length % k < k := Nat.mod_lt _ hk
    have hshift1 : (1 : Nat) <<< k = 2 ^ k := by rw [Nat.shiftLeft_eq, one_mul]
    rw [hshift1] at hmain
    have hLE : (full_chunks k (bits_of_bytes data).length
        (bits_of_bytes data)).2.isEmpty = false := by
      cases hL : (full_chunks k (bits_of_bytes data).length
          (bits_of_bytes data)).2 with
      | nil =>
          rw [hL] at hlenL
          simp only [List.length_nil] at hlenL
          exact absurd hlenL.symm hB
      | cons x t => rfl
    have hspec : spec_chunk_indices k (bits_of_bytes data)
        = (full_chunks k (bits_of_bytes data).length (bits_of_bytes data)).1
          ++ [nat_of_bits
              ((full_chunks k (bits_of_bytes data).length (bits_of_bytes data)).2
                ++ List.replicate
                  (k - (full_chunks k (bits_of_bytes data).length
                    (bits_of_bytes data)).2.length) false)] := by
      simp [spec_chunk_indices, hLE]
    have hflen : (full_chunks k (bits_of_bytes data).length
        (bits_of_bytes data)).2.length = stF.bits_available := by
      rw [hbitsF]; exact hlenL
    have hfval : stF.value % 2 ^ stF.bits_available
        = nat_of_bits (full_chunks k (bits_of_bytes data).length
            (bits_of_bytes data)).2 := by
      rw [hbitsF]; exact hval
    have hfbk : stF.bits_available ≤ k := by rw [hbitsF]; omega
    have hflush := flush_extract hflen hfval hfbk
    have hidx : (stF.value <<< (k - stF.bits_available)) &&& (2 ^ k - 1)
        = nat_of_bits
            ((full_chunks k (bits_of_bytes data).length (bits_of_bytes data)).2
              ++ List.replicate
                (k - (full_chunks k (bits_of_bytes data).length
                  (bits_of_bytes data)).2.length) false) := by
      rw [hflush]
      have hco : k - stF.bits_available
          = k - (full_chunks k (bits_of_bytes data).length
              (bits_of_bytes data)).2.length := by
        rw [hbitsF, hlenL]
      rw [hco]
    have hpadlen : ((full_chunks k (bits_of_bytes data).length
          (bits_of_bytes data)).2
        ++ List.replicate (k - (full_chunks k (bits_of_bytes data).length
            (bits_of_bytes data)).2.length) false).length = k := by
      rw [List.length_append, List.length_replicate, hlenL]
      omega
    have hidxlt : (stF.value <<< (k - stF.bits_available)) &&& (2 ^ k - 1)
        < a.length := by
      rw [hidx, hlen_a]
      have h := nat_of_bits_lt
        ((full_chunks k (bits_of_bytes data).length (bits_of_bytes data)).2
          ++ List.replicate (k - (full_chunks k (bits_of_bytes data).length
              (bits_of_bytes data)).2.length) false)
      rw [hpadlen] at h
      exact h
    have hcond : 0 < stF.bits_available ∧
        stF.out.length < max_output_len data.length k g - 1 := by
      refine ⟨by rw [hbitsF]; omega, ?_⟩
      rw [houtF]
      have hdm : 8 * data.length / k / g.toNat
          ≤ (8 * data.length / k + 1) / g.toNat :=
        Nat.div_le_div_right (by omega)
      omega
    set sym : Char := a.toList.getD
      ((stF.value <<< (k - stF.bits_available)) &&& (2 ^ k - 1)) ' ' with hsymd
    have hsymmem : sym ∈ a.toList := getD_mem_of_lt (by rw [halpha]; exact hidxlt)
    have hsymne : sym ≠ '-' := fun hEq => hdash (hEq ▸ hsymmem)
    refine ⟨Δ₀ ++ [sym], ?_, ?_, ?_, ?_, ?_, ?_⟩
    · rw [hmain, if_pos hcond, if_pos hidxlt, houtF]
    · rw [List.filter_append, hfil, hspec, List.map_append]
      congr 1
      have h1 : List.filter (fun c => decide (c ≠ '-')) [sym] = [sym] := by
        simp [hsymne]
      rw [h1, List.map_cons, List.map_nil, hsymd, hidx]
    · rw [List.filter_append, List.length_append, hfil, List.length_map,
        hchunklen]
      have h1 : List.filter (fun c => decide (c ≠ '-')) [sym] = [sym] := by
        simp [hsymne]
      rw [h1]
      simp only [List.length_cons, List.length_nil]
      have harg : 8 * data.length + k - 1 = 8 * data.length + (k - 1) := by omega
      rw [harg]
      have hds := div_split (8 * data.length) (k - 1) k hk
      have h1d : (8 * data.length % k + (k - 1)) / k = 1 := by
        have hle : k ≤ 8 * data.length % k + (k - 1) := by omega
        rw [Nat.div_eq_sub_div hk hle]
        have hlt : 8 * data.length % k + (k - 1) - k < k := by omega
        rw [Nat.div_eq_of_lt hlt]
      omega
    · have hsymcnt : List.count '-' [sym] = 0 := by
        rw [List.count_eq_zero, List.mem_singleton]
        exact fun h => hsymne h.symm
      rw [List.count_append, hsymcnt, Nat.add_zero]
      by_cases hg : 0 < g
      · rw [hcnt, if_pos ⟨hg, hne⟩, if_pos hg]
      · rw [hcnt, if_neg (fun h => hg h.1), if_neg hg]
    · intro c hc
      rcases List.mem_append.mp hc with h | h
      · exact hmem c h
      · rw [List.mem_singleton] at h
        exact Or.inl (h ▸ hsymmem)
    · refine ⟨sym, ?_, hsymmem⟩
      rw [List.getLast?_append_of_ne_nil Δ₀ (by simp)]
      rfl

/-! ## C3 and C4: the custom encoder against the spec's bitstream model -/

/-- C3, corrected.  For a custom alphabet of `2 ^ k` characters
(`1 ≤ k ≤ 8`, hence `2 ≤ |A| ≤ 256`) not containing `'-'` and a non-empty
input, the encoder consumes the input as an MSB-first bitstream emitting
one alphabet character per `k` bits (the symbols, ignoring separators, are
exactly the `k`-bit chunk indices mapped through the alphabet), zero-pads
the final partial symbol on its low bits, and emits exactly
`ceil(8n/k) = (8n + k - 1) / k` symbols in total.  For alphabet sizes that
are not a power of two the original claim is false - out-of-range indices
are silently skipped (`index < alphabet_len`, mod_random_encode.c
line 104); see the counterexample. -/
theorem C3_custom_encoding (data : List Nat) (a : String) (k : Nat) (g : Int)
    (hdata : ∀ b ∈ data, b < 256) (hne : data ≠ [])
    (hk1 : 1 ≤ k) (hk8 : k ≤ 8) (hlen_a : a.length = 2 ^ k)
    (hdash : '-' ∉ a.toList) :
    ∃ Δ : List Char,
      random_encode_custom_alphabet data (some a) g = String.mk Δ ∧
      Δ.filter (fun c => decide (c ≠ '-'))
        = (spec_chunk_indices k (bits_of_bytes data)).map
            (fun i => a.toList.getD i ' ') ∧
      (Δ.filter (fun c => decide (c ≠ '-'))).length
        = (8 * data.length + k - 1) / k ∧
      (∀ c ∈ Δ, c ∈ a.toList ∨ c = '-') := by
  obtain ⟨Δ, h1, h2, h3, h4, h5, h6⟩ :=
    custom_alphabet_master data a k g hdata hne hk1 hk8 hlen_a hdash
  exact ⟨Δ, h1, h2, h3, h5⟩

/-- Witness for C3: alphabet `"ABCD"` (k = 2) and 4 input bytes - the
hypotheses hold and the encoder emits exactly `(8·4 + 2 - 1) / 2 = 16`
symbols, the chunk indices of the input bitstream. -/
theorem C3_custom_encoding_witness :
    ((∀ b ∈ [0, 1, 2, 3], b < 256) ∧ ([0, 1, 2, 3] : List Nat) ≠ [] ∧
      1 ≤ 2 ∧ 2 ≤ 8 ∧ "ABCD".length = 2 ^ 2 ∧ '-' ∉ "ABCD".toList) ∧
    (∃ Δ : List Char,
      random_encode_custom_alphabet [0, 1, 2, 3] (some "ABCD") 0
        = String.mk Δ ∧
      Δ.filter (fun c => decide (c ≠ '-'))
        = (spec_chunk_indices 2 (bits_of_bytes [0, 1, 2, 3])).map
            (fun i => "ABCD".toList.getD i ' ') ∧
      (Δ.filter (fun c => decide (c ≠ '-'))).length
        = (8 * ([0, 1, 2, 3] : List Nat).length + 2 - 1) / 2 ∧
      (∀ c ∈ Δ, c ∈ "ABCD".toList ∨ c = '-')) :=
  ⟨⟨by decide, by decide, by decide, by decide, by decide, by decide⟩,
    C3_custom_encoding [0, 1, 2, 3] "ABCD" 2 0 (by decide) (by decide)
      (by decide) (by decide) (by decide) (by decide)⟩

/-- Counterexample to the original C3: for the 3-character alphabet
`"ABC"` (`k = ceil(log2 3) = 2`) and the single input byte `0xFF`, the
claim demands `ceil(8/2) = 4` emitted symbols, but the encoder emits
none: every extracted 2-bit index is 3, which the
`index < alphabet_len` guard (mod_random_encode.c line 104) silently
skips. -/
theorem C3_custom_encoding_counterexample :
    bits_needed "ABC".length = 2 ∧
    ((random_encode_custom_alphabet [0xFF] (some "ABC") 0).toList.filter
      (fun c => decide (c ≠ '-'))).length = 0 ∧
    (8 * ([0xFF] : List Nat).length + 2 - 1) / 2 = 4 := by decide

/-- C4, corrected.  For a power-of-two custom alphabet (so every symbol
is emitted) with grouping `g > 0` and non-empty input of `n` bytes, the
encoder inserts exactly `(8·(n-1)/k)/g` literal `'-'` separators - the
`i < length - 1` guard (mod_random_encode.c line 109) suppresses every
separator due while the final input byte is processed, so the count is
not the claimed `floor((S-1)/g)` - and no separator follows the final
symbol: the output ends with an alphabet character. -/
theorem C4_separators (data : List Nat) (a : String) (k : Nat) (g : Int)
    (hdata : ∀ b ∈ data, b < 256) (hne : data ≠ [])
    (hk1 : 1 ≤ k) (hk8 : k ≤ 8) (hlen_a : a.length = 2 ^ k)
    (hdash : '-' ∉ a.toList) (hg : 0 < g) :
    ∃ Δ : List Char,
      random_encode_custom_alphabet data (some a) g = String.mk Δ ∧
      Δ.count '-' = 8 * (data.length - 1) / k / g.toNat ∧
      (∃ c, Δ.getLast? = some c ∧ c ∈ a.toList ∧ c ≠ '-') := by
  obtain ⟨Δ, h1, h2, h3, h4, h5, c, hc1, hc2⟩ :=
    custom_alphabet_master data a k g hdata hne hk1 hk8 hlen_a hdash
  refine ⟨Δ, h1, ?_, c, hc1, hc2, fun hEq => hdash (hEq ▸ hc2)⟩
  rw [h4, if_pos hg]

/-- Witness for C4: alphabet `"ABCD"` (k = 2), 3 input bytes, grouping 2:
the hypotheses hold, there are `(8·2/2)/2 = 4` separators and the output
ends with an alphabet character. -/
theorem C4_separators_witness :
    ((∀ b ∈ [0, 1, 2], b < 256) ∧ ([0, 1, 2] : List Nat) ≠ [] ∧
      1 ≤ 2 ∧ 2 ≤ 8 ∧ "ABCD".length = 2 ^ 2 ∧ '-' ∉ "ABCD".toList ∧
      (0 : Int) < 2) ∧
    (∃ Δ : List Char,
      random_encode_custom_alphabet [0, 1, 2] (some "ABCD") 2
        = String.mk Δ ∧
      Δ.count '-'
        = 8 * (([0, 1, 2] : List Nat).length - 1) / 2 / (2 : Int).toNat ∧
      (∃ c, Δ.getLast? = some c ∧ c ∈ "ABCD".toList ∧ c ≠ '-')) :=
  ⟨⟨by decide, by decide, by decide, by decide, by decide, by decide,
      by decide⟩,
    C4_separators [0, 1, 2] "ABCD" 2 2 (by decide) (by decide) (by decide)
      (by decide) (by decide) (by decide) (by decide)⟩

/-- Counterexample to the original C4: alphabet `"ABCD"` (k = 2),
grouping 2, one input byte 0.  The output is `"AAAA"` - `S = 4` emitted
symbols and zero separators - while the claim demands
`floor((S-1)/g) = floor(3/2) = 1`, because `i < length - 1`
(mod_random_encode.c line 109) suppresses all separators during the
final (here: only) input byte. -/
theorem C4_separators_counterexample :
    random_encode_custom_alphabet [0] (some "ABCD") 2 = "AAAA" ∧
    "AAAA".toList.count '-' = 0 ∧
    ("AAAA".toList.filter (fun c => decide (c ≠ '-'))).length = 4 ∧
    (4 - 1) / 2 = 1 := by decide

end ModRandom
